import Mathlib

/-!
Verification of the API response field-selection mechanism
(`FieldFilter`): the grammar parser, the path-set query utilities and
the recursive tree-filter evaluator.  The definitions below are a
shallow embedding of the TypeScript sources: the revised implementation
(recursive-descent grammar parser plus evaluator) and, further down in
the `Legacy` namespace, the earlier split-based implementation from
`src/FieldFilter.ts`.  Strings are modelled as lists of characters
where character-level scanning matters; parse errors are modelled by an
explicit error type (the TypeScript code throws `Error` with a message
string).
-/

/-- Whitespace test, modelling the JavaScript regular expression `\s`
for the character classes exercised here (space, tab, newline,
carriage return, vertical tab, form feed). -/
def isWsChar (c : Char) : Bool :=
  c = ' ' || c = '\t' || c = '\n' || c = '\r' || c = Char.ofNat 11 || c = Char.ofNat 12

/-- A field-name character: anything except whitespace, `.`, `,`, `(`, `)`
(the TypeScript regular expression `[\s.,()]`, negated). -/
def isNameChar (c : Char) : Bool :=
  !(isWsChar c) && c ≠ '.' && c ≠ ',' && c ≠ '(' && c ≠ ')'

/-- Remove leading and trailing whitespace, modelling `String.trim`. -/
def trimChars (s : List Char) : List Char :=
  ((s.dropWhile isWsChar).reverse.dropWhile isWsChar).reverse

/-- Errors raised by the recursive-descent parser.  Each constructor
mirrors one `throw new Error(...)` site of `FieldListParser`; the
carried `Nat` is the 0-based character position reported in the
message.  `outOfFuel` is an artefact of the fuel-based embedding and is
proved unreachable for the inputs considered. -/
inductive ParseError where
  /-- `parse()`: trailing garbage — "Unexpected character c at position p". -/
  | unexpectedChar (c : Char) (pos : Nat)
  /-- `collectField`: a bare wildcard with an empty prefix —
  "'*' is not allowed as a top-level selector (position p). ...". -/
  | topLevelWildcard (pos : Nat)
  /-- `expect`: "Expected c at position p, got found". -/
  | expectedChar (c : Char) (pos : Nat) (found : Option Char)
  /-- `parseName`: "Expected field name at position p, got found". -/
  | expectedName (pos : Nat) (found : Option Char)
  /-- Fuel exhaustion of the embedding (no TypeScript counterpart). -/
  | outOfFuel
deriving DecidableEq

/-- Parser state: the characters not yet consumed together with the
absolute 0-based position of the next character (mirroring the
`pos` cursor of `FieldListParser`, which indexes the trimmed input). -/
structure PState where
  rem : List Char
  pos : Nat
deriving DecidableEq

/-- `skipWhitespace()` of the parser: advance past whitespace. -/
def pskip (s : PState) : PState :=
  ⟨s.rem.dropWhile isWsChar, s.pos + (s.rem.takeWhile isWsChar).length⟩

/-- `peek()`: next non-whitespace character, plus the mutated state
(the TypeScript `peek` advances `pos` past whitespace as a side
effect). -/
def peekc (s : PState) : Option Char × PState :=
  let t := pskip s
  (t.rem.head?, t)

/-- `consume()`: skip whitespace, then consume one character. -/
def consume (s : PState) : PState :=
  let t := pskip s
  ⟨t.rem.drop 1, t.pos + 1⟩

/-- `expect(ch)`: consume the expected character or fail. -/
def expectc (c : Char) (s : PState) : Except ParseError PState :=
  let t := pskip s
  match t.rem.head? with
  | some d =>
      if d = c then .ok ⟨t.rem.drop 1, t.pos + 1⟩
      else .error (.expectedChar c t.pos (some d))
  | none => .error (.expectedChar c t.pos none)

/-- `parseName()`: one or more characters that are not whitespace,
comma, dot, or parentheses. -/
def parseName (s : PState) : Except ParseError (String × PState) :=
  let t := pskip s
  let nm := t.rem.takeWhile isNameChar
  if nm.isEmpty then .error (.expectedName t.pos t.rem.head?)
  else .ok (String.mk nm, ⟨t.rem.drop nm.length, t.pos + nm.length⟩)

mutual

/-- `collectField(prefix, out)`: parse one `field` production and
return every resulting path (several when a field-set is used), in
order.  The bare-wildcard check and the error position `pos - 1`
mirror the source. -/
def collectField (fuel : Nat) (pfx : List String) (s : PState) :
    Except ParseError (List (List String) × PState) :=
  match fuel with
  | 0 => .error .outOfFuel
  | fuel + 1 =>
    match parseName s with
    | .error e => .error e
    | .ok (name, s₁) =>
      if name = "*" && pfx.isEmpty then
        .error (.topLevelWildcard (s₁.pos - 1))
      else
        match peekc s₁ with
        | (some '.', s₂) => collectField fuel (pfx ++ [name]) (consume s₂)
        | (some '(', s₂) =>
          match parseFieldSetList fuel (pfx ++ [name]) (consume s₂) with
          | .error e => .error e
          | .ok (paths, s₃) =>
            match expectc ')' s₃ with
            | .error e => .error e
            | .ok s₄ => .ok (paths, s₄)
        | (_, s₂) => .ok ([pfx ++ [name]], s₂)

/-- `parseFieldSetList(prefix, out)`: `'*' (',' field)* | field (',' field)*`. -/
def parseFieldSetList (fuel : Nat) (pfx : List String) (s : PState) :
    Except ParseError (List (List String) × PState) :=
  match fuel with
  | 0 => .error .outOfFuel
  | fuel + 1 =>
    let s₀ := pskip s
    match peekc s₀ with
    | (some '*', s₁) => setListLoop fuel pfx [pfx ++ ["*"]] (consume s₁)
    | _ =>
      match collectField fuel pfx s₀ with
      | .error e => .error e
      | .ok (ps, s₁) => setListLoop fuel pfx ps s₁

/-- The `while (this.peek() === ",")` loops of `parseFieldSetList`:
keep collecting comma-separated fields with the same prefix. -/
def setListLoop (fuel : Nat) (pfx : List String) (acc : List (List String))
    (s : PState) : Except ParseError (List (List String) × PState) :=
  match fuel with
  | 0 => .error .outOfFuel
  | fuel + 1 =>
    match peekc s with
    | (some ',', s₁) =>
      match collectField fuel pfx (consume s₁) with
      | .error e => .error e
      | .ok (ps, s₂) => setListLoop fuel pfx (acc ++ ps) s₂
    | (_, s₁) => .ok (acc, s₁)

end

/-- The `while (this.peek() === ",")` loop of `parseFieldList`:
top-level comma-separated fields (empty prefix). -/
def fieldListLoop (fuel : Nat) (acc : List (List String)) (s : PState) :
    Except ParseError (List (List String) × PState) :=
  match fuel with
  | 0 => .error .outOfFuel
  | fuel + 1 =>
    match peekc s with
    | (some ',', s₁) =>
      match collectField fuel [] (consume s₁) with
      | .error e => .error e
      | .ok (ps, s₂) => fieldListLoop fuel (acc ++ ps) s₂
    | (_, s₁) => .ok (acc, s₁)

/-- `FieldListParser.parse()`: one field, then the comma loop, then the
trailing-garbage check.  The fuel `2 * length + 2` over-approximates
the number of recursive calls, each of which consumes input. -/
def runParse (src : List Char) : Except ParseError (List (List String)) :=
  match collectField (2 * src.length + 2) [] ⟨src, 0⟩ with
  | .error e => .error e
  | .ok (ps, s₁) =>
    match fieldListLoop (2 * src.length + 2) ps s₁ with
    | .error e => .error e
    | .ok (paths, s₂) =>
      match (pskip s₂).rem with
      | [] => .ok paths
      | c :: _ => .error (.unexpectedChar c (pskip s₂).pos)

/-- `parseFieldList(input)` of the revised implementation: trim, return
`[]` for blank input, otherwise run the recursive-descent parser. -/
def parseFieldList (input : String) : Except ParseError (List (List String)) :=
  let t := trimChars input.data
  if t.isEmpty then .ok [] else runParse t

/-- Splitting on the character `.`, modelling JavaScript
`String.split(".")` (so the empty string yields one empty entry). -/
def splitOnDot : List Char → List (List Char)
  | [] => [[]]
  | c :: cs =>
    if c = '.' then [] :: splitOnDot cs
    else
      match splitOnDot cs with
      | [] => [[c]]
      | x :: xs => (c :: x) :: xs

/-- JSON values: `null | boolean | number | string | array | object`.
Objects are ordered association lists, modelling the insertion order
that `Object.keys` reports; the numeric payload is irrelevant to the
filtering semantics. -/
inductive Json where
  | null
  | bool (b : Bool)
  | num (n : Int)
  | str (s : String)
  | arr (elems : List Json)
  | obj (entries : List (String × Json))

/-- A `FieldNode`: a trie node mapping field names to child nodes.
A node with no children means "this exact path was listed and nothing
deeper". -/
inductive FieldNode where
  | node (children : List (String × FieldNode))

/-- The children association list of a trie node. -/
def FieldNode.children : FieldNode → List (String × FieldNode)
  | .node cs => cs

/-- Key lookup in a trie node (JavaScript property access). -/
def FieldNode.lookup (t : FieldNode) (k : String) : Option FieldNode :=
  t.children.lookup k

/-- Insert one path into the trie, walking/extending segment by
segment (the inner loop of `buildFieldTree`).  A missing key is
appended (JavaScript property insertion order); an existing key's
subtree is descended into. -/
def insertSegs (path : List String) (t : FieldNode) : FieldNode :=
  match path with
  | [] => t
  | seg :: rest =>
    if (t.children.lookup seg).isSome then
      .node (t.children.map fun kv =>
        if kv.1 = seg then (kv.1, insertSegs rest kv.2) else kv)
    else
      .node (t.children ++ [(seg, insertSegs rest (.node []))])

/-- `buildFieldTree(paths)`: fold all paths into a trie. -/
def buildFieldTree (paths : List (List String)) : FieldNode :=
  paths.foldl (fun t p => insertSegs p t) (.node [])

/-- `p.every((seg, i) => seg === target[i])`: the segments of the first
list match the corresponding leading segments of the second (false
when the first list is longer, since out-of-range indexing yields
`undefined`). -/
def segsLead : List String → List String → Bool
  | [], _ => true
  | _ :: _, [] => false
  | a :: as, b :: bs => a = b && segsLead as bs

/-- `p.length > 0 && p[p.length - 1] === "*"`: the path ends in the
wildcard marker. -/
def endsWithStar (p : List String) : Bool :=
  p.getLast? = some "*"

/-- `isPathExplicitlyListed` (revised implementation): the exact path
appears in the set, ignoring any wildcard-containing path. -/
def isPathExplicitlyListed (paths : List (List String)) (target : List String) : Bool :=
  paths.any fun p =>
    decide (p.length = target.length) && !(p.contains "*") && segsLead p target

/-- `isPathOrDescendantListed` (revised implementation): some listed
path starts with the target; a path ending in `*` covers everything at
and below its prefix and also reaches up to the target's ancestors. -/
def isPathOrDescendantListed (paths : List (List String)) (target : List String) : Bool :=
  paths.any fun p =>
    if endsWithStar p then
      let pf := p.dropLast
      (decide (pf.length ≤ target.length) && segsLead pf target) ||
      (decide (pf.length > target.length) && segsLead target pf)
    else
      decide (p.length ≥ target.length) && segsLead target p

/-- `isPathOrDescendantListedConcrete`: like the previous query but
ignoring every path that contains the wildcard marker. -/
def isPathOrDescendantListedConcrete (paths : List (List String)) (target : List String) : Bool :=
  paths.any fun p =>
    !(p.contains "*") && decide (p.length ≥ target.length) && segsLead target p

/-- `isAncestorListed` (revised implementation): some listed path is a
proper prefix of the target; a wildcard path's prefix may equal the
target or be a proper prefix of it. -/
def isAncestorListed (paths : List (List String)) (target : List String) : Bool :=
  paths.any fun p =>
    if endsWithStar p then
      decide (p.dropLast.length < target.length) && segsLead p.dropLast target
    else
      decide (p.length < target.length) && segsLead p target

/-- Options accepted by the `FieldFilter` constructor (the `include`
field is renamed `includeOpt` because `include` is a Lean keyword). -/
structure FieldFilterOptions where
  includeOpt : Option String
  excludeOpt : Option String
  explicitFieldsOpt : Option (List String)

/-- The immutable filter configuration built by the constructor. -/
structure FieldFilter where
  includePaths : List (List String)
  excludePaths : List (List String)
  explicitPaths : List (List String)
  excludeTree : FieldNode

/-- Parsing of one `explicitFields` entry: trim, split on `.`, trim
each segment (no grammar parsing). -/
def parseExplicitField (f : String) : List String :=
  (splitOnDot (trimChars f.data)).map fun seg => String.mk (trimChars seg)

/-- The `FieldFilter` constructor (revised implementation): parse the
include and exclude headers through the grammar, split the explicit
fields naively, and precompute the exclude trie.  A parse failure
surfaces as an error before any tree is touched. -/
def FieldFilter.build (opts : FieldFilterOptions) : Except ParseError FieldFilter :=
  let includeRaw := String.mk (trimChars (opts.includeOpt.getD "").data)
  match parseFieldList includeRaw with
  | .error e => .error e
  | .ok includePaths =>
    match parseFieldList (opts.excludeOpt.getD "") with
    | .error e => .error e
    | .ok excludePaths =>
      .ok { includePaths := includePaths
            excludePaths := excludePaths
            explicitPaths := (opts.explicitFieldsOpt.getD []).map parseExplicitField
            excludeTree := buildFieldTree excludePaths }

/-- `isExplicitField(path)`: the path matches some explicit path
exactly. -/
def isExplicitField (cfg : FieldFilter) (path : List String) : Bool :=
  cfg.explicitPaths.any fun ep =>
    decide (ep.length = path.length) && segsLead ep path

/-- `hasUnincludedExplicitAncestor(path)`: some proper, non-empty
prefix of the path is an EXPLICIT field that is not exactly listed in
the inclusion list (the gate is shut). -/
def hasUnincludedExplicitAncestor (cfg : FieldFilter) (path : List String) : Bool :=
  (List.range' 1 (path.length - 1)).any fun i =>
    isExplicitField cfg (path.take i) &&
    !(isPathExplicitlyListed cfg.includePaths (path.take i))

/-- `isIncluded(path)` (revised implementation): the core inclusion
policy. -/
def isIncluded (cfg : FieldFilter) (path : List String) : Bool :=
  if cfg.includePaths.isEmpty then
    !(isExplicitField cfg path) && !(hasUnincludedExplicitAncestor cfg path)
  else
    if isExplicitField cfg path || hasUnincludedExplicitAncestor cfg path then
      isPathOrDescendantListedConcrete cfg.includePaths path
    else
      isAncestorListed cfg.includePaths path ||
      isPathOrDescendantListed cfg.includePaths path

/-- `isExcluded(excludeNode, key)` (revised implementation): a
childless `*` entry excludes every key at this level; a childless
entry for the key excludes the key and everything below it. -/
def isExcluded (t : FieldNode) (key : String) : Bool :=
  (match t.lookup "*" with
   | some n => n.children.isEmpty
   | none => false) ||
  (match t.lookup key with
   | some n => n.children.isEmpty
   | none => false)

/-- `excludeNode[key] ?? excludeNode["*"] ?? {}`: the exclude subtree
a surviving key recurses with. -/
def childExclude (t : FieldNode) (key : String) : FieldNode :=
  match t.lookup key with
  | some n => n
  | none =>
    match t.lookup "*" with
    | some n => n
    | none => .node []

mutual

/-- `filterValue(value, currentPath, excludeNode)`: scalars pass
through; arrays and objects are filtered.  `none` is the Omitted
sentinel (`undefined` in TypeScript). -/
def filterValue (cfg : FieldFilter) (v : Json) (path : List String)
    (ex : FieldNode) : Option Json :=
  match v with
  | .null => some .null
  | .bool b => some (.bool b)
  | .num n => some (.num n)
  | .str s => some (.str s)
  | .arr xs => some (.arr (filterArray cfg xs path ex))
  | .obj kvs =>
    let es := filterEntries cfg kvs path ex
    if es.isEmpty then none else some (.obj es)

/-- `filterArray`: each element is filtered under the same path and
exclude node; Omitted elements are dropped. -/
def filterArray (cfg : FieldFilter) (xs : List Json) (path : List String)
    (ex : FieldNode) : List Json :=
  match xs with
  | [] => []
  | x :: rest =>
    match filterValue cfg x path ex with
    | some w => w :: filterArray cfg rest path ex
    | none => filterArray cfg rest path ex

/-- The key loop of `filterObject`: exclusion veto, inclusion
decision, then recursion into the child with its exclude subtree. -/
def filterEntries (cfg : FieldFilter) (kvs : List (String × Json))
    (path : List String) (ex : FieldNode) : List (String × Json) :=
  match kvs with
  | [] => []
  | (k, v) :: rest =>
    let tail := filterEntries cfg rest path ex
    if isExcluded ex k then tail
    else if !(isIncluded cfg (path ++ [k])) then tail
    else
      match filterValue cfg v (path ++ [k]) (childExclude ex k) with
      | some w => (k, w) :: tail
      | none => tail

end

/-- `apply(value)`: run the evaluator from the root with the
precomputed exclude trie. -/
def FieldFilter.apply (cfg : FieldFilter) (v : Json) : Option Json :=
  filterValue cfg v [] cfg.excludeTree

mutual

/-- A field path is present in a JSON value: the empty path is always
present; arrays are transparent (an index is never part of a path);
an object must have a matching key whose value contains the rest. -/
def hasPath (v : Json) (p : List String) : Bool :=
  match v, p with
  | _, [] => true
  | .arr xs, q => hasPathArr xs q
  | .obj kvs, k :: rest => hasPathObj kvs k rest
  | _, _ :: _ => false

/-- Some array element contains the path. -/
def hasPathArr (xs : List Json) (p : List String) : Bool :=
  match xs with
  | [] => false
  | x :: rest => hasPath x p || hasPathArr rest p

/-- Some object entry has the key and its value contains the rest. -/
def hasPathObj (kvs : List (String × Json)) (k : String) (rest : List String) : Bool :=
  match kvs with
  | [] => false
  | (k₂, v) :: tail => (k₂ = k && hasPath v rest) || hasPathObj tail k rest

end

namespace Legacy

/-!
The earlier implementation from `src/FieldFilter.ts`: a split-based
`parseFieldList` with no grammar (and hence no parse errors), an
`includeAll` flag for a whole-header `"*"`, and query utilities with
no wildcard-path handling.  `buildFieldTree` and the explicit-field
splitting are textually identical to the revised implementation and
are shared from above.
-/

/-- Legacy `parseFieldList`: split on `,`, trim each entry, split on
`.`, trim each segment, drop empty segments.  Blank input yields
`[]`; no input is ever rejected. -/
def parseFieldList (input : String) : List (List String) :=
  let t := trimChars input.data
  if t.isEmpty then []
  else
    (splitOnComma t).map fun entry =>
      ((splitOnDot (trimChars entry)).map fun seg => trimChars seg)
        |>.filterMap fun seg =>
          if seg.isEmpty then none else some (String.mk seg)
  where
    /-- JavaScript `String.split(",")`. -/
    splitOnComma : List Char → List (List Char)
      | [] => [[]]
      | c :: cs =>
        if c = ',' then [] :: splitOnComma cs
        else
          match splitOnComma cs with
          | [] => [[c]]
          | x :: xs => (c :: x) :: xs

/-- Legacy `isPathExplicitlyListed`: exact match, with no special
handling of wildcard paths. -/
def isPathExplicitlyListed (paths : List (List String)) (target : List String) : Bool :=
  paths.any fun p => decide (p.length = target.length) && segsLead p target

/-- Legacy `isPathOrDescendantListed`: some listed path starts with
the target. -/
def isPathOrDescendantListed (paths : List (List String)) (target : List String) : Bool :=
  paths.any fun p => decide (p.length ≥ target.length) && segsLead target p

/-- Legacy `isAncestorListed`: some listed path is a proper prefix of
the target. -/
def isAncestorListed (paths : List (List String)) (target : List String) : Bool :=
  paths.any fun p => decide (p.length < target.length) && segsLead p target

/-- Legacy filter configuration, with the `includeAll` flag for an
include header equal to `"*"`. -/
structure FieldFilter where
  includeAll : Bool
  includePaths : List (List String)
  excludePaths : List (List String)
  explicitPaths : List (List String)
  excludeTree : FieldNode

/-- Legacy constructor: never fails. -/
def FieldFilter.build (opts : FieldFilterOptions) : FieldFilter :=
  let includeRaw := String.mk (trimChars (opts.includeOpt.getD "").data)
  let includeAll := includeRaw = "*"
  let includePaths := if includeAll then [] else parseFieldList includeRaw
  let excludePaths := parseFieldList (opts.excludeOpt.getD "")
  { includeAll := includeAll
    includePaths := includePaths
    excludePaths := excludePaths
    explicitPaths := (opts.explicitFieldsOpt.getD []).map parseExplicitField
    excludeTree := buildFieldTree excludePaths }

/-- Legacy `isExplicitField`. -/
def isExplicitField (cfg : FieldFilter) (path : List String) : Bool :=
  cfg.explicitPaths.any fun ep =>
    decide (ep.length = path.length) && segsLead ep path

/-- Legacy `hasUnincludedExplicitAncestor`. -/
def hasUnincludedExplicitAncestor (cfg : FieldFilter) (path : List String) : Bool :=
  (List.range' 1 (path.length - 1)).any fun i =>
    isExplicitField cfg (path.take i) &&
    !(isPathExplicitlyListed cfg.includePaths (path.take i))

/-- Legacy `isIncluded`, with the rule-3 branch for `includeAll`. -/
def isIncluded (cfg : FieldFilter) (path : List String) : Bool :=
  if !cfg.includeAll && cfg.includePaths.isEmpty then
    !(isExplicitField cfg path) && !(hasUnincludedExplicitAncestor cfg path)
  else
    let isExplicit := isExplicitField cfg path
    if cfg.includeAll then
      if isExplicit then false
      else !(hasUnincludedExplicitAncestor cfg path)
    else
      if isExplicit || hasUnincludedExplicitAncestor cfg path then
        isPathOrDescendantListed cfg.includePaths path
      else
        isAncestorListed cfg.includePaths path ||
        isPathOrDescendantListed cfg.includePaths path

/-- Legacy `isExcluded`: no `"*"` clause. -/
def isExcluded (t : FieldNode) (key : String) : Bool :=
  match t.lookup key with
  | some n => n.children.isEmpty
  | none => false

/-- Legacy child exclude node: `excludeNode[key] ?? {}`. -/
def childExclude (t : FieldNode) (key : String) : FieldNode :=
  match t.lookup key with
  | some n => n
  | none => .node []

mutual

/-- Legacy `filterValue`. -/
def filterValue (cfg : FieldFilter) (v : Json) (path : List String)
    (ex : FieldNode) : Option Json :=
  match v with
  | .null => some .null
  | .bool b => some (.bool b)
  | .num n => some (.num n)
  | .str s => some (.str s)
  | .arr xs => some (.arr (filterArray cfg xs path ex))
  | .obj kvs =>
    let es := filterEntries cfg kvs path ex
    if es.isEmpty then none else some (.obj es)

/-- Legacy `filterArray`. -/
def filterArray (cfg : FieldFilter) (xs : List Json) (path : List String)
    (ex : FieldNode) : List Json :=
  match xs with
  | [] => []
  | x :: rest =>
    match filterValue cfg x path ex with
    | some w => w :: filterArray cfg rest path ex
    | none => filterArray cfg rest path ex

/-- Legacy `filterObject` key loop. -/
def filterEntries (cfg : FieldFilter) (kvs : List (String × Json))
    (path : List String) (ex : FieldNode) : List (String × Json) :=
  match kvs with
  | [] => []
  | (k, v) :: rest =>
    let tail := filterEntries cfg rest path ex
    if isExcluded ex k then tail
    else if !(isIncluded cfg (path ++ [k])) then tail
    else
      match filterValue cfg v (path ++ [k]) (childExclude ex k) with
      | some w => (k, w) :: tail
      | none => tail

end

/-- Legacy `apply`. -/
def FieldFilter.apply (cfg : FieldFilter) (v : Json) : Option Json :=
  filterValue cfg v [] cfg.excludeTree

end Legacy

/-- Presence of a field path in an optional (possibly Omitted) value:
an Omitted value contains no path. -/
def hasPathOpt (w : Option Json) (p : List String) : Bool :=
  match w with
  | none => false
  | some v => hasPath v p

/-! ### Generic infrastructure for the proofs -/

/-- Structural induction over JSON values, with membership hypotheses
for the elements of arrays and the values of objects. -/
theorem Json.myInduction (P : Json → Prop)
    (hnull : P .null) (hbool : ∀ b, P (.bool b)) (hnum : ∀ n, P (.num n))
    (hstr : ∀ s, P (.str s))
    (harr : ∀ xs, (∀ x ∈ xs, P x) → P (.arr xs))
    (hobj : ∀ kvs, (∀ k v₀, (k, v₀) ∈ kvs → P v₀) → P (.obj kvs)) :
    ∀ v, P v
  | .null => hnull
  | .bool b => hbool b
  | .num n => hnum n
  | .str s => hstr s
  | .arr xs => harr xs (fun x hx =>
      Json.myInduction P hnull hbool hnum hstr harr hobj x)
  | .obj kvs => hobj kvs (fun k v₀ h =>
      Json.myInduction P hnull hbool hnum hstr harr hobj v₀)
termination_by v => sizeOf v
decreasing_by
  · have := List.sizeOf_lt_of_mem hx
    simp only [Json.arr.sizeOf_spec]
    omega
  · have h1 := List.sizeOf_lt_of_mem h
    simp only [Prod.mk.sizeOf_spec] at h1
    simp only [Json.obj.sizeOf_spec]
    omega

/-- `segsLead p q` is exactly the prefix relation on segment lists. -/
theorem segsLead_iff (p q : List String) : segsLead p q = true ↔ p <+: q := by
  induction p generalizing q with
  | nil => simp [segsLead]
  | cons a as ih =>
    cases q with
    | nil => simp [segsLead]
    | cons b bs =>
      simp [segsLead, List.cons_prefix_cons, ih, and_comm]

/-- Elements of a filtered array come from filtering elements of the
input array, under the same path and exclude node. -/
theorem mem_filterArray {cfg : FieldFilter} {xs : List Json} {path : List String}
    {ex : FieldNode} {w : Json} (h : w ∈ filterArray cfg xs path ex) :
    ∃ x ∈ xs, filterValue cfg x path ex = some w := by
  induction xs with
  | nil => simp [filterArray] at h
  | cons x rest ih =>
    rw [filterArray] at h
    rcases hx : filterValue cfg x path ex with _ | w₂ <;> rw [hx] at h
    · obtain ⟨y, hy, hdone⟩ := ih h
      exact ⟨y, List.mem_cons_of_mem _ hy, hdone⟩
    · rcases List.mem_cons.mp h with rfl | h₂
      · exact ⟨x, List.mem_cons_self _ _, hx⟩
      · obtain ⟨y, hy, hdone⟩ := ih h₂
        exact ⟨y, List.mem_cons_of_mem _ hy, hdone⟩

/-- An entry of a filtered object corresponds to an input entry that
survived the exclusion veto and the inclusion decision, and whose
child value filtered to a non-Omitted result. -/
theorem mem_filterEntries {cfg : FieldFilter} {kvs : List (String × Json)}
    {path : List String} {ex : FieldNode} {k : String} {w : Json}
    (h : (k, w) ∈ filterEntries cfg kvs path ex) :
    ∃ v₀, (k, v₀) ∈ kvs ∧ isExcluded ex k = false ∧
      isIncluded cfg (path ++ [k]) = true ∧
      filterValue cfg v₀ (path ++ [k]) (childExclude ex k) = some w := by
  induction kvs with
  | nil => simp [filterEntries] at h
  | cons kv rest ih =>
    obtain ⟨k₂, v₂⟩ := kv
    rw [filterEntries] at h
    by_cases hex : isExcluded ex k₂
    · rw [if_pos hex] at h
      obtain ⟨v₀, hmem, hrest⟩ := ih h
      exact ⟨v₀, List.mem_cons_of_mem _ hmem, hrest⟩
    · rw [if_neg hex] at h
      by_cases hinc : isIncluded cfg (path ++ [k₂])
      · rw [if_neg (by simp [hinc])] at h
        rcases hv : filterValue cfg v₂ (path ++ [k₂]) (childExclude ex k₂)
          with _ | w₂ <;> rw [hv] at h
        · obtain ⟨v₀, hmem, hrest⟩ := ih h
          exact ⟨v₀, List.mem_cons_of_mem _ hmem, hrest⟩
        · rcases List.mem_cons.mp h with heq | h₂
          · obtain ⟨rfl, rfl⟩ := Prod.mk.injEq .. ▸ And.intro
              (congrArg Prod.fst heq) (congrArg Prod.snd heq)
            exact ⟨v₂, List.mem_cons_self _ _,
              Bool.eq_false_iff.mpr hex, hinc, hv⟩
          · obtain ⟨v₀, hmem, hrest⟩ := ih h₂
            exact ⟨v₀, List.mem_cons_of_mem _ hmem, hrest⟩
      · rw [if_pos (by simp [Bool.eq_false_iff.mpr hinc])] at h
        obtain ⟨v₀, hmem, hrest⟩ := ih h
        exact ⟨v₀, List.mem_cons_of_mem _ hmem, hrest⟩

/-- `hasPathArr` is an existential over the array's elements. -/
theorem hasPathArr_iff {xs : List Json} {p : List String} :
    hasPathArr xs p = true ↔ ∃ x ∈ xs, hasPath x p = true := by
  induction xs with
  | nil => simp [hasPathArr]
  | cons x rest ih => simp [hasPathArr, ih]

/-- `hasPathObj` is an existential over the object's entries. -/
theorem hasPathObj_iff {kvs : List (String × Json)} {k : String} {rest : List String} :
    hasPathObj kvs k rest = true ↔
      ∃ v₀, (k, v₀) ∈ kvs ∧ hasPath v₀ rest = true := by
  induction kvs with
  | nil => simp [hasPathObj]
  | cons kv tail ih =>
    obtain ⟨k₂, v₂⟩ := kv
    simp only [hasPathObj, Bool.or_eq_true, Bool.and_eq_true, ih, decide_eq_true_eq,
      List.mem_cons]
    constructor
    · rintro (⟨rfl, hp⟩ | ⟨v₀, hmem, hp⟩)
      · exact ⟨v₂, Or.inl rfl, hp⟩
      · exact ⟨v₀, Or.inr hmem, hp⟩
    · rintro ⟨v₀, heq | hmem, hp⟩
      · obtain ⟨rfl, rfl⟩ := Prod.mk.injEq .. ▸ And.intro
          (congrArg Prod.fst heq) (congrArg Prod.snd heq)
        exact Or.inl ⟨rfl, hp⟩
      · exact Or.inr ⟨v₀, hmem, hp⟩

/-- Core soundness of the evaluator's inclusion decision: whenever a
field path is present in a filtered result, every step of that path
(relative to the current path) passed the `isIncluded` check. -/
theorem hasPath_filterValue_included (cfg : FieldFilter) :
    ∀ v : Json, ∀ (path : List String) (ex : FieldNode) (q : List String) (i : Nat),
      hasPathOpt (filterValue cfg v path ex) q = true → i < q.length →
      isIncluded cfg (path ++ q.take (i + 1)) = true := by
  intro v
  induction v using Json.myInduction with
  | hnull =>
    intro path ex q i hp hi
    cases q with
    | nil => simp at hi
    | cons k r => simp [filterValue, hasPathOpt, hasPath] at hp
  | hbool b =>
    intro path ex q i hp hi
    cases q with
    | nil => simp at hi
    | cons k r => simp [filterValue, hasPathOpt, hasPath] at hp
  | hnum n =>
    intro path ex q i hp hi
    cases q with
    | nil => simp at hi
    | cons k r => simp [filterValue, hasPathOpt, hasPath] at hp
  | hstr s =>
    intro path ex q i hp hi
    cases q with
    | nil => simp at hi
    | cons k r => simp [filterValue, hasPathOpt, hasPath] at hp
  | harr xs ih =>
    intro path ex q i hp hi
    cases q with
    | nil => simp at hi
    | cons k r =>
      rw [show filterValue cfg (.arr xs) path ex
            = some (.arr (filterArray cfg xs path ex)) from rfl] at hp
      rw [show hasPathOpt (some (.arr (filterArray cfg xs path ex))) (k :: r)
            = hasPathArr (filterArray cfg xs path ex) (k :: r) from rfl] at hp
      obtain ⟨w, hw, hpw⟩ := hasPathArr_iff.mp hp
      obtain ⟨x, hx, hfx⟩ := mem_filterArray hw
      exact ih x hx path ex (k :: r) i (by rw [hfx]; exact hpw) hi
  | hobj kvs ih =>
    intro path ex q i hp hi
    cases q with
    | nil => simp at hi
    | cons k r =>
      rw [show filterValue cfg (.obj kvs) path ex
            = (if (filterEntries cfg kvs path ex).isEmpty then none
               else some (.obj (filterEntries cfg kvs path ex))) from rfl] at hp
      by_cases hemp : (filterEntries cfg kvs path ex).isEmpty
      · rw [if_pos hemp] at hp
        simp [hasPathOpt] at hp
      · rw [if_neg hemp] at hp
        rw [show hasPathOpt (some (.obj (filterEntries cfg kvs path ex))) (k :: r)
              = hasPathObj (filterEntries cfg kvs path ex) k r from rfl] at hp
        obtain ⟨w, hmem, hpw⟩ := hasPathObj_iff.mp hp
        obtain ⟨v₀, hv₀, _, hinc, hfv⟩ := mem_filterEntries hmem
        cases i with
        | zero => simpa using hinc
        | succ j =>
          have hj : j < r.length := by simp at hi; omega
          have := ih k v₀ hv₀ (path ++ [k]) (childExclude ex k) r j
            (by rw [hfv]; exact hpw) hj
          rw [List.take_succ_cons, ← List.append_cons] at *
          simpa [List.append_assoc] using this

/-- A non-empty path for which `isIncluded` is false is absent from
any `apply` result. -/
theorem not_included_absent (cfg : FieldFilter) (v : Json) (d : List String)
    (hd : d ≠ []) (hni : isIncluded cfg d = false) :
    hasPathOpt (cfg.apply v) d = false := by
  cases hh : hasPathOpt (cfg.apply v) d with
  | false => rfl
  | true =>
    exfalso
    have hlen : 0 < d.length := List.length_pos.mpr hd
    have := hasPath_filterValue_included cfg v [] cfg.excludeTree d (d.length - 1)
      hh (by omega)
    rw [show d.length - 1 + 1 = d.length by omega, List.take_length,
      List.nil_append] at this
    rw [this] at hni
    exact Bool.true_eq_false.mp hni

/-- `String.split` never returns an empty list of parts. -/
theorem splitOnDot_ne_nil : ∀ l : List Char, splitOnDot l ≠ [] := by
  intro l
  cases l with
  | nil => simp [splitOnDot]
  | cons c cs =>
    rw [splitOnDot]
    by_cases h : c = '.'
    · simp [h]
    · rw [if_neg h]
      cases splitOnDot cs <;> simp

/-- Every parsed explicit path has at least one segment. -/
theorem parseExplicitField_ne_nil (f : String) : parseExplicitField f ≠ [] := by
  rw [parseExplicitField]
  intro h
  exact splitOnDot_ne_nil _ (List.map_eq_nil_iff.mp h)

/-- In a configuration built by the constructor, a path recognised as
EXPLICIT is non-empty (explicit paths always have a segment). -/
theorem isExplicitField_ne_nil {opts : FieldFilterOptions} {cfg : FieldFilter}
    (hb : FieldFilter.build opts = .ok cfg) {e : List String}
    (hexp : isExplicitField cfg e = true) : e ≠ [] := by
  rw [isExplicitField, List.any_eq_true] at hexp
  obtain ⟨ep, hmem, hp⟩ := hexp
  rw [Bool.and_eq_true, decide_eq_true_eq] at hp
  have hep : ep ≠ [] := by
    rw [FieldFilter.build] at hb
    rcases h1 : parseFieldList (String.mk (trimChars (opts.includeOpt.getD "").data))
      with e₁ | ps₁ <;> rw [h1] at hb
    · exact absurd hb (by simp)
    rcases h2 : parseFieldList (opts.excludeOpt.getD "") with e₂ | ps₂ <;>
      rw [h2] at hb
    · exact absurd hb (by simp)
    have : cfg.explicitPaths = (opts.explicitFieldsOpt.getD []).map parseExplicitField := by
      cases hb₂ : hb
      · rfl
    rw [this] at hmem
    obtain ⟨f, _, rfl⟩ := List.mem_map.mp hmem
    exact parseExplicitField_ne_nil f
  intro he
  rw [he] at hp
  exact hep (List.length_eq_zero.mp hp.1)

/-- An EXPLICIT, not exactly listed proper prefix shuts the gate for
everything below it. -/
theorem gate_of_strict_prefix {cfg : FieldFilter} {e d : List String}
    (hexp : isExplicitField cfg e = true)
    (hnl : isPathExplicitlyListed cfg.includePaths e = false)
    (hpre : e <+: d) (hne : e ≠ d) (henil : e ≠ []) :
    hasUnincludedExplicitAncestor cfg d = true := by
  have hlt : e.length < d.length := by
    rcases Nat.lt_or_ge e.length d.length with h | h
    · exact h
    · exact absurd (hpre.eq_of_length (Nat.le_antisymm hpre.length_le h)) hne
  have hpos : 0 < e.length := List.length_pos.mpr henil
  have htake : d.take e.length = e := (List.prefix_iff_eq_take.mp hpre).symm
  rw [hasUnincludedExplicitAncestor, List.any_eq_true]
  refine ⟨e.length, ?_, ?_⟩
  · rw [List.mem_range'_1]
    omega
  · rw [htake, hexp, hnl]
    rfl

/-- A gated path with no concrete listing at or below it fails the
inclusion decision. -/
theorem isIncluded_eq_false_of_gated {cfg : FieldFilter} {d : List String}
    (hg : hasUnincludedExplicitAncestor cfg d = true)
    (hnc : isPathOrDescendantListedConcrete cfg.includePaths d = false) :
    isIncluded cfg d = false := by
  rw [isIncluded]
  by_cases hemp : cfg.includePaths.isEmpty
  · simp [hemp, hg]
  · simp [hemp, hg, hnc]

/-- Claim C4: EXPLICIT gating monotonicity.  In any successfully
constructed configuration, if `e` is EXPLICIT and not exactly listed
in the include set, then a strict descendant `d` of `e` is absent from
`apply v` for every JSON value `v`, unless `d` itself or one of its
descendants is concretely (wildcard-free) listed. -/
theorem explicitGateMonotonicity (opts : FieldFilterOptions) (cfg : FieldFilter)
    (hb : FieldFilter.build opts = .ok cfg) (e d : List String) (v : Json)
    (hexp : isExplicitField cfg e = true)
    (hnl : isPathExplicitlyListed cfg.includePaths e = false)
    (hpre : e <+: d) (hne : e ≠ d)
    (hnc : isPathOrDescendantListedConcrete cfg.includePaths d = false) :
    hasPathOpt (cfg.apply v) d = false := by
  have henil : e ≠ [] := isExplicitField_ne_nil hb hexp
  have hg := gate_of_strict_prefix hexp hnl hpre hne henil
  have hdne : d ≠ [] := by
    intro hd
    rw [hd] at hpre
    exact hne ((List.prefix_nil.mp hpre).trans hd.symm)
  exact not_included_absent cfg v d hdne (isIncluded_eq_false_of_gated hg hnc)

/-- The design-document tree `{A: {B: {X: {P, Q}, Y}, C: {Z}}}`. -/
def designTreeValue : Json :=
  .obj [("A", .obj [("B", .obj [("X", .obj [("P", .str "p-value"),
    ("Q", .str "q-value")]), ("Y", .str "y-value")]),
    ("C", .obj [("Z", .str "z-value")])])]

/-- Options of the gating scenario: include `A, A.B.X.Q` with
`A.B.X` and `A.B.X.Q` EXPLICIT. -/
def gateOpts : FieldFilterOptions :=
  ⟨some ("A, A.B.X.Q"), none, some ["A.B.X", "A.B.X.Q"]⟩

/-- The configuration the constructor builds from `gateOpts`. -/
def gateCfg : FieldFilter :=
  ⟨[["A"], ["A", "B", "X", "Q"]], [],
   [["A", "B", "X"], ["A", "B", "X", "Q"]], .node []⟩

/-- Witness for claim C4, at the spec's own scenario: with EXPLICIT
`{A.B.X, A.B.X.Q}` and include `A, A.B.X.Q`, the sibling `A.B.X.P` is
absent from the output while `A.B.X.Q` is present. -/
theorem explicitGateMonotonicity_witness :
    FieldFilter.build gateOpts = .ok gateCfg ∧
    isExplicitField gateCfg ["A", "B", "X"] = true ∧
    isPathExplicitlyListed gateCfg.includePaths ["A", "B", "X"] = false ∧
    isPathOrDescendantListedConcrete gateCfg.includePaths ["A", "B", "X", "P"] = false ∧
    hasPathOpt (gateCfg.apply designTreeValue) ["A", "B", "X", "P"] = false ∧
    hasPathOpt (gateCfg.apply designTreeValue) ["A", "B", "X", "Q"] = true :=
  ⟨rfl, rfl, rfl, rfl,
   explicitGateMonotonicity gateOpts gateCfg rfl ["A", "B", "X"]
     ["A", "B", "X", "P"] designTreeValue rfl rfl (by decide) (by decide) rfl,
   rfl⟩

/-- Options exhibiting the exclusion bug: the exclude header lists
both `A` and `A.B`. -/
def redundantExcludeOpts : FieldFilterOptions := ⟨none, some ("A, A.B"), none⟩

/-- The configuration built from `redundantExcludeOpts`: in the
exclude trie the node for `A` has the child `B`, so `A` is not a leaf. -/
def redundantExcludeCfg : FieldFilter :=
  ⟨[], [["A"], ["A", "B"]], [], .node [("A", .node [("B", .node [])])]⟩

/-- A value containing the excluded field `A`. -/
def redundantExcludeValue : Json := .obj [("A", .obj [("C", .num 1)])]

/-- Claim C1, evaluated at the failing input: with
`exclude = "A, A.B"` the path `A` is listed in the exclusion header,
yet `apply` returns the input unchanged — the field `A` (and even its
whole subtree apart from `B`) survives, because the deeper exclusion
`A.B` turns the trie node of `A` into a non-leaf and `isExcluded`
only drops leaves.  This contradicts the documented rule that any
field in the exclusion list is removed regardless of anything else. -/
theorem exclusionDominance_failing_input :
    FieldFilter.build redundantExcludeOpts = .ok redundantExcludeCfg ∧
    (["A"] : List String) ∈ redundantExcludeCfg.excludePaths ∧
    redundantExcludeCfg.apply redundantExcludeValue = some redundantExcludeValue ∧
    hasPathOpt (redundantExcludeCfg.apply redundantExcludeValue) ["A"] = true :=
  ⟨rfl, by decide, rfl, rfl⟩

/-- Claim C3: with a non-empty include set, an EXPLICIT or gated path
is included exactly when the path itself or a descendant of it is
listed by a wildcard-free include entry; wildcard entries never
satisfy the check. -/
theorem explicitRequiresConcreteListing (cfg : FieldFilter) (path : List String)
    (hne : cfg.includePaths ≠ [])
    (hg : isExplicitField cfg path = true ∨
      hasUnincludedExplicitAncestor cfg path = true) :
    (isIncluded cfg path = true ↔
      ∃ q ∈ cfg.includePaths, ("*" : String) ∉ q ∧ path <+: q) := by
  have hemp : cfg.includePaths.isEmpty = false := by
    rcases h : cfg.includePaths with _ | _
    · exact absurd h hne
    · rfl
  have hcond : (isExplicitField cfg path ||
      hasUnincludedExplicitAncestor cfg path) = true := by
    rcases hg with h | h <;> simp [h]
  rw [isIncluded, if_neg (by simp [hemp]), if_pos hcond,
    isPathOrDescendantListedConcrete, List.any_eq_true]
  constructor
  · rintro ⟨q, hmem, hq⟩
    rw [Bool.and_eq_true, Bool.and_eq_true, Bool.not_eq_true',
      decide_eq_true_eq] at hq
    refine ⟨q, hmem, ?_, (segsLead_iff _ _).mp hq.2⟩
    intro hstar
    have hc : q.contains "*" = true := List.elem_iff.mpr hstar
    rw [hc] at hq
    exact absurd hq.1.1 (by simp)
  · rintro ⟨q, hmem, hstar, hpre⟩
    refine ⟨q, hmem, ?_⟩
    rw [Bool.and_eq_true, Bool.and_eq_true, Bool.not_eq_true',
      decide_eq_true_eq]
    refine ⟨⟨?_, hpre.length_le⟩, (segsLead_iff _ _).mpr hpre⟩
    rw [Bool.eq_false_iff]
    intro hc
    exact hstar (List.elem_iff.mp hc)

/-- A small configuration for the C3 witness: include `a.b`, no
exclusions, `a` EXPLICIT. -/
def gateCfg₂ : FieldFilter := ⟨[["a", "b"]], [], [["a"]], .node []⟩

/-- Witness for claim C3: the EXPLICIT field `a` is included because
the concrete include entry `a.b` lies below it. -/
theorem explicitRequiresConcreteListing_witness :
    gateCfg₂.includePaths ≠ [] ∧ isExplicitField gateCfg₂ ["a"] = true ∧
    isIncluded gateCfg₂ ["a"] = true :=
  ⟨by decide, rfl,
   (explicitRequiresConcreteListing gateCfg₂ ["a"] (by decide)
     (Or.inl rfl)).mpr ⟨["a", "b"], by decide, by decide, by decide⟩⟩

/-- Claim C6: field-set expansion, at each of the spec's examples
(entry order preserved). -/
theorem fieldSetExpansion :
    parseFieldList ("a(b,c)") = .ok [["a", "b"], ["a", "c"]] ∧
    parseFieldList ("a(x(p,q))") = .ok [["a", "x", "p"], ["a", "x", "q"]] ∧
    parseFieldList ("a(x(*))") = .ok [["a", "x", "*"]] ∧
    parseFieldList ("A(*, B.X)") = .ok [["A", "*"], ["A", "B", "X"]] :=
  ⟨rfl, rfl, rfl, rfl⟩

/-- `filterArray` drops Omitted elements and keeps the rest, i.e. it
is a `filterMap` of `filterValue` over the elements. -/
theorem filterArray_eq_filterMap (cfg : FieldFilter) (xs : List Json)
    (path : List String) (ex : FieldNode) :
    filterArray cfg xs path ex
      = xs.filterMap fun x => filterValue cfg x path ex := by
  induction xs with
  | nil => rfl
  | cons x rest ih =>
    rw [filterArray, List.filterMap_cons]
    rcases h : filterValue cfg x path ex with _ | w <;> simp [ih]

/-- Claim C7: container semantics.  An array node always evaluates to
an array: each element is filtered under the same path and exclude
node as the array itself and Omitted elements are dropped (never
replaced by null); the result is never itself Omitted.  An object
node evaluates to Omitted exactly when no key survives. -/
theorem containerSemantics :
    (∀ (cfg : FieldFilter) (xs : List Json) (path : List String) (ex : FieldNode),
      filterValue cfg (.arr xs) path ex
        = some (.arr (xs.filterMap fun x => filterValue cfg x path ex))) ∧
    (∀ (cfg : FieldFilter) (kvs : List (String × Json)) (path : List String)
      (ex : FieldNode),
      filterValue cfg (.obj kvs) path ex = none ↔
        filterEntries cfg kvs path ex = []) := by
  constructor
  · intro cfg xs path ex
    rw [filterValue, filterArray_eq_filterMap]
  · intro cfg kvs path ex
    rw [filterValue]
    by_cases h : (filterEntries cfg kvs path ex).isEmpty
    · rw [if_pos h]
      exact ⟨fun _ => List.isEmpty_iff.mp h, fun _ => rfl⟩
    · simp only [if_neg h]
      constructor
      · intro hsome
        exact absurd hsome (by simp)
      · intro hnil
        exact absurd (by rw [hnil]; rfl) h

/-- Claim C9: a blank include header behaves identically to an
omitted one — blank input parses to the empty list (not an error),
the two constructors build equal configurations, and therefore the
`apply` results agree on every JSON value. -/
theorem emptyIncludeDefault (s : String) (exc : Option String)
    (ef : Option (List String)) (h : trimChars s.data = []) :
    parseFieldList s = .ok [] ∧
    FieldFilter.build ⟨some s, exc, ef⟩ = FieldFilter.build ⟨none, exc, ef⟩ ∧
    ∀ v, (FieldFilter.build ⟨some s, exc, ef⟩).map (fun c => c.apply v)
        = (FieldFilter.build ⟨none, exc, ef⟩).map (fun c => c.apply v) := by
  have h1 : parseFieldList s = .ok [] := by
    rw [parseFieldList, h]
    rfl
  have h2 : FieldFilter.build ⟨some s, exc, ef⟩ = FieldFilter.build ⟨none, exc, ef⟩ := by
    rw [FieldFilter.build, FieldFilter.build]
    simp only [Option.getD_some, Option.getD_none, h]
    rfl
  exact ⟨h1, h2, fun v => by rw [h2]⟩

/-- Witness for claim C9: include `"  "` (all whitespace) versus an
omitted include, with a non-trivial exclude header. -/
theorem emptyIncludeDefault_witness :
    trimChars (String.data ("  ")) = [] ∧
    parseFieldList ("  ") = .ok [] ∧
    FieldFilter.build ⟨some ("  "), some ("A.B"), none⟩
      = FieldFilter.build ⟨none, some ("A.B"), none⟩ :=
  ⟨by decide, (emptyIncludeDefault ("  ") (some ("A.B")) none (by decide)).1,
   (emptyIncludeDefault ("  ") (some ("A.B")) none (by decide)).2.1⟩

/-- Counterexample to claim C5 as stated: the parser accepts the
wildcard marker as an ordinary name whenever the prefix is non-empty,
so `A.*.B` parses to a path whose wildcard is not the last segment,
and `A.*` produces a wildcard-ending path outside any parenthesized
group. -/
theorem parserWildcardInvariant_counterexample :
    parseFieldList ("A.*.B") = .ok [["A", "*", "B"]] ∧
    parseFieldList ("A.*") = .ok [["A", "*"]] ∧
    (["A", "*", "B"] : List String).getLast? = some ("B") :=
  ⟨rfl, rfl, rfl⟩

mutual

/-- Structural size of a JSON value (used to bound the recursion
depth of the evaluator). -/
def jsize : Json → Nat
  | .null => 1
  | .bool _ => 1
  | .num _ => 1
  | .str _ => 1
  | .arr xs => jsizeArr xs + 1
  | .obj kvs => jsizeEntries kvs + 1

/-- Structural size of an array's elements. -/
def jsizeArr : List Json → Nat
  | [] => 1
  | x :: rest => jsize x + jsizeArr rest + 1

/-- Structural size of an object's entries. -/
def jsizeEntries : List (String × Json) → Nat
  | [] => 1
  | (_, v) :: rest => jsize v + jsizeEntries rest + 1

end

theorem jsize_pos (v : Json) : 1 ≤ jsize v := by
  cases v <;> simp [jsize]

theorem jsizeArr_pos (xs : List Json) : 1 ≤ jsizeArr xs := by
  cases xs <;> simp [jsizeArr] <;> omega

theorem jsizeEntries_pos (kvs : List (String × Json)) : 1 ≤ jsizeEntries kvs := by
  rcases kvs with _ | ⟨⟨k, v⟩, rest⟩ <;> simp [jsizeEntries] <;> omega

mutual

/-- A step-counting version of `filterValue`: the outer `none` means
the step budget ran out; `some r` is the evaluator's answer `r`.
Every recursive call spends one unit, so a budget exceeding the input
size certifies termination of the structural recursion. -/
def filterValueF (cfg : FieldFilter) : Nat → Json → List String → FieldNode →
    Option (Option Json)
  | 0, _, _, _ => none
  | fuel + 1, v, path, ex =>
    match v with
    | .null => some (some .null)
    | .bool b => some (some (.bool b))
    | .num n => some (some (.num n))
    | .str s => some (some (.str s))
    | .arr xs =>
      match filterArrayF cfg fuel xs path ex with
      | none => none
      | some ws => some (some (.arr ws))
    | .obj kvs =>
      match filterEntriesF cfg fuel kvs path ex with
      | none => none
      | some es => some (if es.isEmpty then none else some (.obj es))

/-- Step-counting version of `filterArray`. -/
def filterArrayF (cfg : FieldFilter) : Nat → List Json → List String → FieldNode →
    Option (List Json)
  | 0, _, _, _ => none
  | _ + 1, [], _, _ => some []
  | fuel + 1, x :: rest, path, ex =>
    match filterValueF cfg fuel x path ex with
    | none => none
    | some w? =>
      match filterArrayF cfg fuel rest path ex with
      | none => none
      | some ws =>
        some (match w? with
              | some w => w :: ws
              | none => ws)

/-- Step-counting version of `filterEntries`. -/
def filterEntriesF (cfg : FieldFilter) : Nat → List (String × Json) →
    List String → FieldNode → Option (List (String × Json))
  | 0, _, _, _ => none
  | _ + 1, [], _, _ => some []
  | fuel + 1, (k, v) :: rest, path, ex =>
    match filterEntriesF cfg fuel rest path ex with
    | none => none
    | some tail =>
      if isExcluded ex k then some tail
      else if !(isIncluded cfg (path ++ [k])) then some tail
      else
        match filterValueF cfg fuel v (path ++ [k]) (childExclude ex k) with
        | none => none
        | some w? =>
          some (match w? with
                | some w => (k, w) :: tail
                | none => tail)

end

/-- Any step budget larger than the input's structural size is enough:
the step-counting evaluator finishes and agrees with the total
evaluator, on values, arrays and entry lists alike. -/
theorem filterF_adequate (cfg : FieldFilter) : ∀ fuel : Nat,
    (∀ (v : Json) (path : List String) (ex : FieldNode), jsize v < fuel →
      filterValueF cfg fuel v path ex = some (filterValue cfg v path ex)) ∧
    (∀ (xs : List Json) (path : List String) (ex : FieldNode), jsizeArr xs < fuel →
      filterArrayF cfg fuel xs path ex = some (filterArray cfg xs path ex)) ∧
    (∀ (kvs : List (String × Json)) (path : List String) (ex : FieldNode),
      jsizeEntries kvs < fuel →
      filterEntriesF cfg fuel kvs path ex = some (filterEntries cfg kvs path ex)) := by
  intro fuel
  induction fuel with
  | zero =>
    refine ⟨fun v path ex h => absurd h (by omega),
      fun xs path ex h => absurd h (by omega),
      fun kvs path ex h => absurd h (by omega)⟩
  | succ fuel ih =>
    obtain ⟨ihv, iha, ihe⟩ := ih
    refine ⟨?_, ?_, ?_⟩
    · intro v path ex h
      cases v with
      | null => rfl
      | bool b => rfl
      | num n => rfl
      | str s => rfl
      | arr xs =>
        have hb : jsizeArr xs < fuel := by rw [jsize] at h; omega
        rw [filterValueF, iha xs path ex hb]
        rfl
      | obj kvs =>
        have hb : jsizeEntries kvs < fuel := by rw [jsize] at h; omega
        rw [filterValueF, ihe kvs path ex hb]
        rfl
    · intro xs path ex h
      cases xs with
      | nil => rfl
      | cons x rest =>
        have h1 : jsize x < fuel := by
          have := jsizeArr_pos rest
          rw [jsizeArr] at h
          omega
        have h2 : jsizeArr rest < fuel := by
          have := jsize_pos x
          rw [jsizeArr] at h
          omega
        rw [filterArrayF, ihv x path ex h1, iha rest path ex h2]
        rcases hx : filterValue cfg x path ex with _ | w <;>
          rw [filterArray, hx] <;> rfl
    · intro kvs path ex h
      rcases kvs with _ | ⟨⟨k, v⟩, rest⟩
      · rfl
      · have h1 : jsize v < fuel := by
          have := jsizeEntries_pos rest
          rw [jsizeEntries] at h
          omega
        have h2 : jsizeEntries rest < fuel := by
          have := jsize_pos v
          rw [jsizeEntries] at h
          omega
        rw [filterEntriesF, ihe rest path ex h2, filterEntries]
        by_cases hex : isExcluded ex k
        · simp [hex]
        · by_cases hinc : isIncluded cfg (path ++ [k])
          · rw [ihv v (path ++ [k]) (childExclude ex k) h1]
            rcases hv : filterValue cfg v (path ++ [k]) (childExclude ex k)
              with _ | w <;> simp [hex, hinc, hv]
          · simp [hex, hinc]

/-- Claim C8: totality and termination of the evaluator.  The
step-counting evaluator `filterValueF`, which spends one unit of
budget per recursive call, completes within any budget exceeding the
structural size of the input and returns exactly the total function
`filterValue` — i.e. the evaluator terminates by structural recursion
on the finite input tree and produces a value (never an error) for
every configuration; parse failures can only arise earlier, in
`FieldFilter.build`, whose result type is the only one carrying
`ParseError`. -/
theorem evaluatorTotality (cfg : FieldFilter) (v : Json) (fuel : Nat)
    (h : jsize v < fuel) :
    (∀ (path : List String) (ex : FieldNode),
      filterValueF cfg fuel v path ex = some (filterValue cfg v path ex)) ∧
    filterValueF cfg fuel v [] cfg.excludeTree = some (cfg.apply v) :=
  ⟨fun path ex => (filterF_adequate cfg fuel).1 v path ex h,
   (filterF_adequate cfg fuel).1 v [] cfg.excludeTree h⟩

/-- Witness for claim C8 at the design tree, with a budget of 64. -/
theorem evaluatorTotality_witness :
    jsize designTreeValue < 64 ∧
    filterValueF ⟨[], [], [], .node []⟩ 64 designTreeValue [] (.node [])
      = some (FieldFilter.apply ⟨[], [], [], .node []⟩ designTreeValue) :=
  ⟨by decide, (evaluatorTotality ⟨[], [], [], .node []⟩ designTreeValue 64 (by decide)).2⟩

/-- Joint invariant of the parsing functions: every produced path
extends the current prefix by at least one segment, and a path
produced with an empty prefix never starts with the wildcard marker
(the bare-wildcard check rejects that case). -/
theorem parser_paths_inv : ∀ fuel : Nat,
    (∀ (pfx : List String) (s : PState) ps s₂,
      collectField fuel pfx s = .ok (ps, s₂) →
      ∀ p ∈ ps, ∃ nm rest, p = pfx ++ nm :: rest ∧ (pfx = [] → nm ≠ "*")) ∧
    (∀ (pfx : List String) (s : PState) ps s₂,
      parseFieldSetList fuel pfx s = .ok (ps, s₂) →
      ∀ p ∈ ps, ∃ nm rest, p = pfx ++ nm :: rest) ∧
    (∀ (pfx : List String) (acc : List (List String)) (s : PState) ps s₂,
      setListLoop fuel pfx acc s = .ok (ps, s₂) →
      ∀ p ∈ ps, p ∈ acc ∨ ∃ nm rest, p = pfx ++ nm :: rest) := by
  intro fuel
  induction fuel with
  | zero =>
    refine ⟨?_, ?_, ?_⟩ <;> intro pfx
    · intro s ps s₂ h
      exact absurd h (by rw [collectField]; simp)
    · intro s ps s₂ h
      exact absurd h (by rw [parseFieldSetList]; simp)
    · intro acc s ps s₂ h
      exact absurd h (by rw [setListLoop]; simp)
  | succ fuel ih =>
    obtain ⟨ihc, ihf, ihl⟩ := ih
    refine ⟨?_, ?_, ?_⟩
    · -- collectField
      intro pfx s ps s₂ h p hp
      rw [collectField] at h
      split at h
      · exact absurd h (by simp)
      rename_i name s₁ heq
      split at h
      · exact absurd h (by simp)
      rename_i hcond
      have hname : pfx = [] → name ≠ "*" := by
        intro hpfx hnm
        exact hcond (by simp [hpfx, hnm])
      split at h
      · -- '.' branch
        obtain ⟨nm, rest, hepath, _⟩ := ihc _ _ _ _ h p hp
        exact ⟨name, nm :: rest, by simpa using hepath, hname⟩
      · -- '(' branch
        split at h
        · exact absurd h (by simp)
        rename_i paths s₃ heq3
        split at h
        · exact absurd h (by simp)
        rename_i s₄ heq4
        simp only [Except.ok.injEq, Prod.mk.injEq] at h
        obtain ⟨h1, h2⟩ := h
        subst h1
        obtain ⟨nm, rest, hepath⟩ := ihf _ _ _ _ heq3 p hp
        exact ⟨name, nm :: rest, by simpa using hepath, hname⟩
      · -- default branch
        simp only [Except.ok.injEq, Prod.mk.injEq] at h
        obtain ⟨h1, h2⟩ := h
        subst h1
        have := List.mem_singleton.mp hp
        exact ⟨name, [], by simpa using this, hname⟩
    · -- parseFieldSetList
      intro pfx s ps s₂ h p hp
      rw [parseFieldSetList] at h
      split at h
      · -- '*' branch
        rcases ihl _ _ _ _ _ h p hp with hin | ⟨nm, rest, hepath⟩
        · have := List.mem_singleton.mp hin
          exact ⟨"*", [], this⟩
        · exact ⟨nm, rest, hepath⟩
      · -- field branch
        split at h
        · exact absurd h (by simp)
        rename_i ps₁ s₁ heq1
        rcases ihl _ _ _ _ _ h p hp with hin | ⟨nm, rest, hepath⟩
        · obtain ⟨nm, rest, hepath, _⟩ := ihc _ _ _ _ heq1 p hin
          exact ⟨nm, rest, hepath⟩
        · exact ⟨nm, rest, hepath⟩
    · -- setListLoop
      intro pfx acc s ps s₂ h p hp
      rw [setListLoop] at h
      split at h
      · -- ',' branch
        split at h
        · exact absurd h (by simp)
        rename_i ps₁ s₁ heq1
        rcases ihl _ _ _ _ _ h p hp with hin | ⟨nm, rest, hepath⟩
        · rcases List.mem_append.mp hin with hin | hin
          · exact Or.inl hin
          · obtain ⟨nm, rest, hepath, _⟩ := ihc _ _ _ _ heq1 p hin
            exact Or.inr ⟨nm, rest, hepath⟩
        · exact Or.inr ⟨nm, rest, hepath⟩
      · -- exit branch
        simp only [Except.ok.injEq, Prod.mk.injEq] at h
        obtain ⟨h1, h2⟩ := h
        subst h1
        exact Or.inl hp

/-- Invariant of the top-level comma loop: every produced path either
was already accumulated or is a non-empty path whose first segment is
not the wildcard marker. -/
theorem fieldListLoop_inv (fuel : Nat) :
    ∀ (acc : List (List String)) (s : PState) ps s₂,
      fieldListLoop fuel acc s = .ok (ps, s₂) →
      ∀ p ∈ ps, p ∈ acc ∨ ∃ nm rest, p = nm :: rest ∧ nm ≠ "*" := by
  induction fuel with
  | zero =>
    intro acc s ps s₂ h
    exact absurd h (by rw [fieldListLoop]; simp)
  | succ fuel ih =>
    intro acc s ps s₂ h p hp
    rw [fieldListLoop] at h
    split at h
    · -- ',' branch
      split at h
      · exact absurd h (by simp)
      rename_i ps₁ s₁ heq1
      rcases ih _ _ _ _ h p hp with hin | hrest
      · rcases List.mem_append.mp hin with hin | hin
        · exact Or.inl hin
        · obtain ⟨nm, rest, hepath, hnm⟩ := (parser_paths_inv fuel).1 _ _ _ _ heq1 p hin
          exact Or.inr ⟨nm, rest, by simpa using hepath, hnm rfl⟩
      · exact Or.inr hrest
    · -- exit branch
      simp only [Except.ok.injEq, Prod.mk.injEq] at h
      obtain ⟨h1, h2⟩ := h
      subst h1
      exact Or.inl hp

/-- Claim C5 (amended): on every input on which `parseFieldList`
succeeds, every returned path is non-empty and its first segment is
never the wildcard marker; in particular the single-segment wildcard
path is never returned.  (The original claim's stronger clauses fail:
see the counterexample — the wildcard can occur as a non-final
segment, and wildcard-ending paths arise from dot notation outside
parentheses.) -/
theorem parserOutputInvariant_amended (input : String) (ps : List (List String))
    (h : parseFieldList input = .ok ps) :
    ∀ p ∈ ps, p ≠ [] ∧ p.head? ≠ some ("*") := by
  rw [parseFieldList] at h
  by_cases hemp : (trimChars input.data).isEmpty
  · rw [if_pos hemp] at h
    simp only [Except.ok.injEq] at h
    subst h
    intro p hp
    exact absurd hp (by simp)
  · rw [if_neg hemp, runParse] at h
    split at h
    · exact absurd h (by simp)
    rename_i ps₁ s₁ heqc
    split at h
    · exact absurd h (by simp)
    rename_i paths s₂ heql
    split at h
    · simp only [Except.ok.injEq] at h
      subst h
      intro p hp
      have hform : ∃ nm rest, p = nm :: rest ∧ nm ≠ "*" := by
        rcases fieldListLoop_inv _ _ _ _ _ heql p hp with hin | hform
        · obtain ⟨nm, rest, hepath, hnm⟩ :=
            (parser_paths_inv _).1 _ _ _ _ heqc p hin
          exact ⟨nm, rest, by simpa using hepath, hnm rfl⟩
        · exact hform
      obtain ⟨nm, rest, rfl, hnm⟩ := hform
      refine ⟨by simp, ?_⟩
      simp only [List.head?_cons, ne_eq, Option.some.injEq]
      exact hnm
    · exact absurd h (by simp)

/-- Witness for claim C5 (amended), at the input `a(b,c)`. -/
theorem parserOutputInvariant_amended_witness :
    parseFieldList ("a(b,c)") = .ok [["a", "b"], ["a", "c"]] ∧
    (∀ p ∈ ([["a", "b"], ["a", "c"]] : List (List String)),
      p ≠ [] ∧ p.head? ≠ some ("*")) :=
  ⟨rfl, parserOutputInvariant_amended ("a(b,c)") _ rfl⟩

theorem takeWhile_append_all {α} (P : α → Bool) (l tl : List α)
    (h : ∀ c ∈ l, P c = true) :
    (l ++ tl).takeWhile P = l ++ tl.takeWhile P := by
  induction l with
  | nil => simp
  | cons c cs ih =>
    have hc := h c (by simp)
    simp [List.takeWhile_cons, hc, ih (fun d hd => h d (by simp [hd]))]

theorem dropWhile_append_all {α} (P : α → Bool) (l tl : List α)
    (h : ∀ c ∈ l, P c = true) :
    (l ++ tl).dropWhile P = tl.dropWhile P := by
  induction l with
  | nil => simp
  | cons c cs ih =>
    have hc := h c (by simp)
    simp [List.dropWhile_cons, hc, ih (fun d hd => h d (by simp [hd]))]

theorem takeWhile_dropWhile_nil {α} (P : α → Bool) (l : List α) :
    (l.dropWhile P).takeWhile P = [] := by
  induction l with
  | nil => rfl
  | cons c cs ih =>
    rcases hc : P c with _ | _
    · simp [List.dropWhile_cons, hc, List.takeWhile_cons]
    · simp [List.dropWhile_cons, hc, ih]

theorem isNameChar_not_ws {c : Char} (h : isNameChar c = true) : isWsChar c = false := by
  rw [isNameChar] at h
  simp only [Bool.and_eq_true, Bool.not_eq_true'] at h
  exact h.1.1.1.1

/-- `pskip` does nothing when the remaining input does not start with
whitespace. -/
theorem pskip_of_no_ws (l : List Char) (pos : Nat)
    (h : l.takeWhile isWsChar = []) : pskip ⟨l, pos⟩ = ⟨l, pos⟩ := by
  have hd : l.dropWhile isWsChar = l := by
    cases l with
    | nil => rfl
    | cons c cs =>
      rcases hw : isWsChar c with _ | _
      · simp [List.dropWhile_cons, hw]
      · rw [List.takeWhile_cons, hw] at h
        simp at h
  rw [pskip]
  simp [hd, h]

/-- Skipping whitespace is idempotent. -/
theorem pskip_idem (s : PState) : pskip (pskip s) = pskip s := by
  obtain ⟨l, pos⟩ := s
  rw [show pskip ⟨l, pos⟩
      = ⟨l.dropWhile isWsChar, pos + (l.takeWhile isWsChar).length⟩ from rfl]
  exact pskip_of_no_ws _ _ (takeWhile_dropWhile_nil _ _)

/-- `parseName` only looks at the whitespace-skipped state. -/
theorem parseName_pskip (s : PState) : parseName s = parseName (pskip s) := by
  rw [parseName, parseName, pskip_idem]

/-- Computation of `parseName` when the input is a maximal run of name
characters followed by a non-name remainder. -/
theorem parseName_exact (nm tl : List Char) (pos : Nat) (h1 : nm ≠ [])
    (h2 : ∀ c ∈ nm, isNameChar c = true)
    (h3 : tl.takeWhile isNameChar = []) :
    parseName ⟨nm ++ tl, pos⟩ = .ok (String.mk nm, ⟨tl, pos + nm.length⟩) := by
  have hskip : pskip ⟨nm ++ tl, pos⟩ = ⟨nm ++ tl, pos⟩ := by
    apply pskip_of_no_ws
    cases nm with
    | nil => exact absurd rfl h1
    | cons c cs =>
      rw [List.cons_append, List.takeWhile_cons,
        isNameChar_not_ws (h2 c (by simp))]
      rfl
  have htake : (nm ++ tl).takeWhile isNameChar = nm := by
    rw [takeWhile_append_all _ _ _ h2, h3, List.append_nil]
  rw [parseName, hskip]
  simp only [htake]
  rw [if_neg (by simp [h1])]
  rw [List.drop_left]

/-- `collectField` at a bare wildcard with empty prefix (possibly
preceded by whitespace) raises the top-level-selector error at the
wildcard's position. -/
theorem collectField_star (fuel : Nat) (hf : 1 ≤ fuel) (ws rest : List Char)
    (pos : Nat) (hws : ∀ c ∈ ws, isWsChar c = true)
    (hr : rest.takeWhile isNameChar = []) :
    collectField fuel [] ⟨ws ++ '*' :: rest, pos⟩
      = .error (.topLevelWildcard (pos + ws.length)) := by
  cases fuel with
  | zero => omega
  | succ fuel =>
    have hskip : pskip ⟨ws ++ '*' :: rest, pos⟩ = ⟨'*' :: rest, pos + ws.length⟩ := by
      rw [pskip]
      simp only [dropWhile_append_all _ _ _ hws, takeWhile_append_all _ _ _ hws,
        List.dropWhile_cons, List.takeWhile_cons,
        show isWsChar '*' = false by decide]
      simp
    have hpn : parseName ⟨ws ++ '*' :: rest, pos⟩
        = .ok ("*", ⟨rest, pos + ws.length + 1⟩) := by
      rw [parseName_pskip, hskip]
      have := parseName_exact ['*'] rest (pos + ws.length) (by simp)
        (by intro c hc; simp at hc; subst hc; decide) hr
      simpa using this
    rw [collectField, hpn]
    simp

/-- `collectField` at a simple name entry followed by a comma
(possibly preceded by whitespace): returns the single path of that
name and stops at the comma. -/
theorem collectField_entry (fuel : Nat) (hf : 1 ≤ fuel) (ws nm tl : List Char)
    (pos : Nat) (hws : ∀ c ∈ ws, isWsChar c = true) (h1 : nm ≠ [])
    (h2 : ∀ c ∈ nm, isNameChar c = true) (h3 : nm ≠ ['*']) :
    collectField fuel [] ⟨ws ++ nm ++ ',' :: tl, pos⟩
      = .ok ([[String.mk nm]], ⟨',' :: tl, pos + ws.length + nm.length⟩) := by
  cases fuel with
  | zero => omega
  | succ fuel =>
    have hskip : pskip ⟨ws ++ nm ++ ',' :: tl, pos⟩
        = ⟨nm ++ ',' :: tl, pos + ws.length⟩ := by
      rw [List.append_assoc, pskip]
      simp only [dropWhile_append_all _ _ _ hws, takeWhile_append_all _ _ _ hws]
      rcases nm with _ | ⟨c, cs⟩
      · exact absurd rfl h1
      · rw [List.cons_append, List.dropWhile_cons, List.takeWhile_cons,
          isNameChar_not_ws (h2 c (by simp))]
        simp
    have hpn : parseName ⟨ws ++ nm ++ ',' :: tl, pos⟩
        = .ok (String.mk nm, ⟨',' :: tl, pos + ws.length + nm.length⟩) := by
      rw [parseName_pskip, hskip]
      have := parseName_exact nm (',' :: tl) (pos + ws.length) h1 h2
        (by simp [List.takeWhile_cons, show isNameChar ',' = false by decide])
      rw [this]
    have hnm : (String.mk nm = "*") = False := by
      simp only [eq_iff_iff, iff_false]
      intro hmk
      exact h3 (by simpa using congrArg String.data hmk)
    have hpk : peekc ⟨',' :: tl, pos + ws.length + nm.length⟩
        = (some ',', ⟨',' :: tl, pos + ws.length + nm.length⟩) := by
      rw [peekc, pskip_of_no_ws _ _
        (by simp [List.takeWhile_cons, show isWsChar ',' = false by decide])]
      rfl
    rw [collectField, hpn]
    simp only [hnm, decide_False, Bool.false_and, Bool.false_eq_true, if_false, hpk]
    simp

/-- The characters remaining after the first entry of a header whose
later top-level entries are `names` followed by a bare wildcard entry
and then `rest`: `", n₁, …, nₖ, *" ++ rest`. -/
def starTail : List (List Char) → List Char → List Char
  | [], rest => ',' :: ' ' :: '*' :: rest
  | nm :: names, rest => ',' :: ' ' :: (nm ++ starTail names rest)

/-- A header whose comma-separated top-level entries are `names`
followed by a bare wildcard entry and then `rest`. -/
def starInput : List (List Char) → List Char → List Char
  | [], rest => '*' :: rest
  | nm :: names, rest => nm ++ starTail names rest

/-- Offset of the wildcard within `starTail names rest`. -/
def starOffset : List (List Char) → Nat
  | [] => 2
  | nm :: names => 2 + nm.length + starOffset names

/-- 0-based index of the bare wildcard within `starInput names rest`. -/
def starIndex : List (List Char) → Nat
  | [] => 0
  | nm :: names => nm.length + starOffset names

theorem starTail_head (names : List (List Char)) (rest : List Char) :
    ∃ t, starTail names rest = ',' :: t := by
  cases names <;> exact ⟨_, rfl⟩

theorem starTail_length (names : List (List Char)) (rest : List Char) :
    names.length ≤ (starTail names rest).length := by
  induction names with
  | nil => simp [starTail]
  | cons nm names ih => simp [starTail]; omega

/-- The top-level comma loop hits the bare wildcard and raises the
top-level-selector error at its position, whatever was accumulated. -/
theorem fieldListLoop_star (names : List (List Char))
    (hn : ∀ nm ∈ names, nm ≠ [] ∧ (∀ c ∈ nm, isNameChar c = true) ∧ nm ≠ ['*']) :
    ∀ fuel, names.length + 2 ≤ fuel →
    ∀ (acc : List (List String)) (pos : Nat) (rest : List Char),
      rest.takeWhile isNameChar = [] →
      fieldListLoop fuel acc ⟨starTail names rest, pos⟩
        = .error (.topLevelWildcard (pos + starOffset names)) := by
  induction names with
  | nil =>
    intro fuel hf acc pos rest hr
    cases fuel with
    | zero => omega
    | succ fuel =>
      rw [fieldListLoop]
      have hpk : peekc ⟨starTail [] rest, pos⟩
          = (some ',', ⟨',' :: ' ' :: '*' :: rest, pos⟩) := by
        rw [peekc, show starTail [] rest = ',' :: ' ' :: '*' :: rest from rfl,
          pskip_of_no_ws _ _
            (by simp [List.takeWhile_cons, show isWsChar ',' = false by decide])]
        rfl
      have hcons : consume ⟨',' :: ' ' :: '*' :: rest, pos⟩
          = ⟨' ' :: '*' :: rest, pos + 1⟩ := by
        rw [consume, pskip_of_no_ws _ _
          (by simp [List.takeWhile_cons, show isWsChar ',' = false by decide])]
        rfl
      have hcf := collectField_star fuel (by omega) [' '] rest (pos + 1)
        (by intro c hc; simp at hc; subst hc; decide) hr
      rw [hpk]
      simp only [hcons]
      simp only [List.singleton_append] at hcf
      simp only [hcf]
      simp [starOffset]
  | cons nm names ih =>
    intro fuel hf acc pos rest hr
    obtain ⟨hne, hchars, hstar⟩ := hn nm (by simp)
    cases fuel with
    | zero => omega
    | succ fuel =>
      rw [fieldListLoop]
      have hpk : peekc ⟨starTail (nm :: names) rest, pos⟩
          = (some ',', ⟨',' :: ' ' :: (nm ++ starTail names rest), pos⟩) := by
        rw [peekc, show starTail (nm :: names) rest
            = ',' :: ' ' :: (nm ++ starTail names rest) from rfl,
          pskip_of_no_ws _ _
            (by simp [List.takeWhile_cons, show isWsChar ',' = false by decide])]
        rfl
      have hcons : consume ⟨',' :: ' ' :: (nm ++ starTail names rest), pos⟩
          = ⟨' ' :: (nm ++ starTail names rest), pos + 1⟩ := by
        rw [consume, pskip_of_no_ws _ _
          (by simp [List.takeWhile_cons, show isWsChar ',' = false by decide])]
        rfl
      obtain ⟨t, hst⟩ := starTail_head names rest
      have hcf := collectField_entry fuel (by omega) [' '] nm t (pos + 1)
        (by intro c hc; simp at hc; subst hc; decide) hne hchars hstar
      rw [show ([' '] ++ nm ++ ',' :: t : List Char)
          = ' ' :: (nm ++ ',' :: t) from rfl] at hcf
      rw [hpk]
      simp only [hcons, ← hst] at hcf ⊢
      simp only [hcf]
      have hloop := ih (fun m hm => hn m (by simp [hm])) fuel (by simp at hf; omega)
        (acc ++ [[String.mk nm]]) (pos + 1 + [' '].length + nm.length) rest hr
      simp only [hloop]
      simp [starOffset]
      omega

/-- The constant head of the top-level-selector error message, up to
the interpolated position (39 is the ASCII quote around the `*`). -/
def wildcardMsgHead : List Char :=
  [Char.ofNat 39, '*', Char.ofNat 39] ++
    " is not allowed as a top-level selector (position ".data

/-- The constant tail of the top-level-selector error message. -/
def wildcardMsgTail : List Char :=
  "). Use specific field names or parenthesized wildcards like A(*).".data

/-- The message text each error constructor models, mirroring the
template strings thrown by the TypeScript parser (character 39 is the
ASCII quote). -/
def ParseError.messageChars : ParseError → List Char
  | .unexpectedChar c p =>
    "Unexpected character ".data ++ [Char.ofNat 39, c, Char.ofNat 39] ++
      " at position ".data ++ Nat.toDigits 10 p
  | .topLevelWildcard p =>
    wildcardMsgHead ++ Nat.toDigits 10 p ++ wildcardMsgTail
  | .expectedChar c p found =>
    "Expected ".data ++ [Char.ofNat 39, c, Char.ofNat 39] ++
      " at position ".data ++ Nat.toDigits 10 p ++ ", got ".data ++
      (match found with
       | some d => [Char.ofNat 39, d, Char.ofNat 39]
       | none => [Char.ofNat 39] ++ "EOF".data ++ [Char.ofNat 39])
  | .expectedName p found =>
    "Expected field name at position ".data ++ Nat.toDigits 10 p ++
      ", got ".data ++
      (match found with
       | some d => [Char.ofNat 39, d, Char.ofNat 39]
       | none => [Char.ofNat 39] ++ "EOF".data ++ [Char.ofNat 39])
  | .outOfFuel => []

/-- Claim C2: for every header whose comma-separated top-level entries
are ordinary names followed by a bare wildcard entry (and anything
afterwards that keeps the wildcard bare), `parseFieldList` fails with
the top-level-selector error carrying the wildcard's 0-based position
— it never returns a path list — and the corresponding message names
the restriction and interpolates that position. -/
theorem topLevelWildcardRejected (names : List (List Char)) (rest : List Char)
    (hn : ∀ nm ∈ names, nm ≠ [] ∧ (∀ c ∈ nm, isNameChar c = true) ∧ nm ≠ ['*'])
    (hr : rest.takeWhile isNameChar = [])
    (ht : trimChars (starInput names rest) = starInput names rest) :
    parseFieldList (String.mk (starInput names rest))
      = .error (.topLevelWildcard (starIndex names)) ∧
    ParseError.messageChars (.topLevelWildcard (starIndex names))
      = wildcardMsgHead ++ Nat.toDigits 10 (starIndex names) ++ wildcardMsgTail := by
  refine ⟨?_, rfl⟩
  have hne : starInput names rest ≠ [] := by
    cases names with
    | nil => simp [starInput]
    | cons nm names =>
      obtain ⟨t, hst⟩ := starTail_head names rest
      simp [starInput, hst]
  rw [parseFieldList]
  simp only [show (String.mk (starInput names rest)).data = starInput names rest
    from rfl, ht]
  rw [if_neg (by simp [hne])]
  rw [runParse]
  cases names with
  | nil =>
    have hcf := collectField_star (2 * (starInput [] rest).length + 2) (by omega)
      [] rest 0 (by simp) hr
    simp only [List.nil_append] at hcf
    rw [show starInput [] rest = '*' :: rest from rfl] at hcf ⊢
    simp only [hcf]
    simp [starIndex]
  | cons nm names =>
    obtain ⟨hnm1, hnm2, hnm3⟩ := hn nm (by simp)
    obtain ⟨t, hst⟩ := starTail_head names rest
    have hcf := collectField_entry (2 * (starInput (nm :: names) rest).length + 2)
      (by omega) [] nm t 0 (by simp) hnm1 hnm2 hnm3
    simp only [List.nil_append] at hcf
    rw [show starInput (nm :: names) rest = nm ++ starTail names rest from rfl,
      hst] at hcf ⊢
    simp only [hcf]
    have hfuel : names.length + 2 ≤ 2 * (nm ++ ',' :: t).length + 2 := by
      have h1 := starTail_length names rest
      rw [hst] at h1
      simp at h1 ⊢
      omega
    have hloop := fieldListLoop_star names (fun m hm => hn m (by simp [hm]))
      (2 * (nm ++ ',' :: t).length + 2) hfuel [[String.mk nm]]
      (0 + ([] : List Char).length + nm.length) rest hr
    rw [hst] at hloop
    simp only [hloop]
    simp [starIndex]

/-- Witness for claim C2 at the header `A, *`: the error is the
top-level-selector error at position 3, the index of the `*`. -/
theorem topLevelWildcardRejected_witness :
    (∀ nm ∈ ([['A']] : List (List Char)),
      nm ≠ [] ∧ (∀ c ∈ nm, isNameChar c = true) ∧ nm ≠ ['*']) ∧
    trimChars (starInput [['A']] []) = starInput [['A']] [] ∧
    parseFieldList (String.mk (starInput [['A']] []))
      = .error (.topLevelWildcard 3) ∧
    String.mk (starInput [['A']] []) = ("A, *") :=
  ⟨by decide, by decide,
   (topLevelWildcardRejected [['A']] [] (by decide) (by decide) (by decide)).1,
   rfl⟩

mutual

/-- No key anywhere in the trie is the wildcard marker (the exclude
trie of a wildcard-free exclusion header has this shape). -/
def starFreeTree : FieldNode → Bool
  | .node cs => starFreeChildren cs

/-- `starFreeTree`, over a children list. -/
def starFreeChildren : List (String × FieldNode) → Bool
  | [] => true
  | (k, t) :: rest => k ≠ "*" && starFreeTree t && starFreeChildren rest

end

theorem lookup_star_none {cs : List (String × FieldNode)}
    (h : starFreeChildren cs = true) : cs.lookup "*" = none := by
  induction cs with
  | nil => rfl
  | cons kv rest ih =>
    obtain ⟨k, u⟩ := kv
    rw [starFreeChildren] at h
    simp only [Bool.and_eq_true, decide_eq_true_eq] at h
    have hbeq : ("*" == k) = false := by
      simp only [beq_eq_false_iff_ne, ne_eq]
      exact fun hh => h.1.1 hh.symm
    simp only [List.lookup, hbeq]
    exact ih h.2

theorem lookup_starFree {cs : List (String × FieldNode)}
    (h : starFreeChildren cs = true) {k : String} {t₂ : FieldNode}
    (hl : cs.lookup k = some t₂) : starFreeTree t₂ = true := by
  induction cs with
  | nil => simp [List.lookup] at hl
  | cons kv rest ih =>
    obtain ⟨k₂, u⟩ := kv
    rw [starFreeChildren] at h
    simp only [Bool.and_eq_true, decide_eq_true_eq] at h
    cases hbeq : k == k₂ with
    | false =>
      simp only [List.lookup, hbeq] at hl
      exact ih h.2 hl
    | true =>
      simp only [List.lookup, hbeq] at hl
      injection hl with hl
      subst hl
      exact h.1.2

theorem starFree_lookup_star {t : FieldNode} (h : starFreeTree t = true) :
    t.lookup "*" = none := by
  obtain ⟨cs⟩ := t
  rw [starFreeTree] at h
  exact lookup_star_none h

theorem starFree_lookup {t t₂ : FieldNode} {k : String}
    (h : starFreeTree t = true) (hl : t.lookup k = some t₂) :
    starFreeTree t₂ = true := by
  obtain ⟨cs⟩ := t
  rw [starFreeTree] at h
  exact lookup_starFree h hl

theorem starFreeChildren_append {cs ds : List (String × FieldNode)} :
    starFreeChildren (cs ++ ds)
      = (starFreeChildren cs && starFreeChildren ds) := by
  induction cs with
  | nil => simp [starFreeChildren]
  | cons kv rest ih =>
    obtain ⟨k, u⟩ := kv
    simp [starFreeChildren, ih, Bool.and_assoc]

/-- Inserting a wildcard-free path preserves wildcard-freeness of the
trie. -/
theorem starFree_insert (q : List String) (hq : ("*" : String) ∉ q) :
    ∀ t : FieldNode, starFreeTree t = true →
      starFreeTree (insertSegs q t) = true := by
  induction q with
  | nil =>
    intro t ht
    simpa [insertSegs] using ht
  | cons s rest ih =>
    intro t ht
    have hs : s ≠ "*" := fun h => hq (by simp [h])
    have hrest : ("*" : String) ∉ rest := fun h => hq (by simp [h])
    obtain ⟨cs⟩ := t
    rw [starFreeTree] at ht
    rw [insertSegs]
    by_cases hl : ((FieldNode.node cs).children.lookup s).isSome
    · rw [if_pos hl, starFreeTree]
      rw [show FieldNode.children ⟨cs⟩ = cs from rfl]
      clear hl
      induction cs with
      | nil => rfl
      | cons kv tail ihcs =>
        obtain ⟨k, u⟩ := kv
        rw [starFreeChildren] at ht
        simp only [Bool.and_eq_true, decide_eq_true_eq] at ht
        rw [List.map_cons, starFreeChildren]
        by_cases hk : k = s
        · simp only [if_pos hk]
          simp only [Bool.and_eq_true, decide_eq_true_eq]
          exact ⟨⟨ht.1.1, ih hrest u ht.1.2⟩, by simpa using ihcs ht.2⟩
        · simp only [if_neg hk]
          simp only [Bool.and_eq_true, decide_eq_true_eq]
          exact ⟨⟨ht.1.1, ht.1.2⟩, by simpa using ihcs ht.2⟩
    · rw [if_neg hl, starFreeTree]
      rw [show FieldNode.children ⟨cs⟩ = cs from rfl]
      rw [starFreeChildren_append]
      simp only [Bool.and_eq_true]
      refine ⟨ht, ?_⟩
      rw [starFreeChildren]
      simp only [Bool.and_eq_true, decide_eq_true_eq]
      exact ⟨⟨hs, ih hrest ⟨[]⟩ rfl⟩, rfl⟩

/-- The exclude trie of a wildcard-free path list is wildcard-free. -/
theorem starFree_build (ps : List (List String))
    (h : ∀ p ∈ ps, ("*" : String) ∉ p) :
    starFreeTree (buildFieldTree ps) = true := by
  rw [buildFieldTree]
  have : starFreeTree (FieldNode.node []) = true := rfl
  revert this
  generalize (FieldNode.node [] : FieldNode) = t₀
  intro h0
  induction ps generalizing t₀ with
  | nil => simpa using h0
  | cons q ps ih =>
    rw [List.foldl_cons]
    exact ih (fun p hp => h p (by simp [hp])) (insertSegs q t₀)
      (starFree_insert q (h q (by simp)) t₀ h0)

theorem endsWithStar_eq_false {p : List String} (h : ("*" : String) ∉ p) :
    endsWithStar p = false := by
  rw [endsWithStar]
  simp only [decide_eq_false_iff_not]
  intro heq
  exact h (List.mem_of_mem_getLast? heq)

theorem contains_star_eq_false {p : List String} (h : ("*" : String) ∉ p) :
    p.contains "*" = false := by
  rw [Bool.eq_false_iff]
  intro hc
  exact h (List.elem_iff.mp hc)

theorem isPathExplicitlyListed_eq_legacy (ps : List (List String))
    (hs : ∀ p ∈ ps, ("*" : String) ∉ p) (target : List String) :
    isPathExplicitlyListed ps target = Legacy.isPathExplicitlyListed ps target := by
  rw [isPathExplicitlyListed, Legacy.isPathExplicitlyListed]
  induction ps with
  | nil => rfl
  | cons p rest ih =>
    rw [List.any_cons, List.any_cons,
      ih (fun q hq => hs q (by simp [hq])),
      contains_star_eq_false (hs p (by simp))]
    simp

theorem isPathOrDescendantListed_eq_legacy (ps : List (List String))
    (hs : ∀ p ∈ ps, ("*" : String) ∉ p) (target : List String) :
    isPathOrDescendantListed ps target
      = Legacy.isPathOrDescendantListed ps target := by
  rw [isPathOrDescendantListed, Legacy.isPathOrDescendantListed]
  induction ps with
  | nil => rfl
  | cons p rest ih =>
    rw [List.any_cons, List.any_cons,
      ih (fun q hq => hs q (by simp [hq])),
      endsWithStar_eq_false (hs p (by simp))]
    simp

theorem isPathOrDescendantListedConcrete_eq_legacy (ps : List (List String))
    (hs : ∀ p ∈ ps, ("*" : String) ∉ p) (target : List String) :
    isPathOrDescendantListedConcrete ps target
      = Legacy.isPathOrDescendantListed ps target := by
  rw [isPathOrDescendantListedConcrete, Legacy.isPathOrDescendantListed]
  induction ps with
  | nil => rfl
  | cons p rest ih =>
    rw [List.any_cons, List.any_cons,
      ih (fun q hq => hs q (by simp [hq])),
      contains_star_eq_false (hs p (by simp))]
    simp

theorem isAncestorListed_eq_legacy (ps : List (List String))
    (hs : ∀ p ∈ ps, ("*" : String) ∉ p) (target : List String) :
    isAncestorListed ps target = Legacy.isAncestorListed ps target := by
  rw [isAncestorListed, Legacy.isAncestorListed]
  induction ps with
  | nil => rfl
  | cons p rest ih =>
    rw [List.any_cons, List.any_cons,
      ih (fun q hq => hs q (by simp [hq])),
      endsWithStar_eq_false (hs p (by simp))]
    simp

theorem isExcluded_eq_legacy {t : FieldNode} (h : starFreeTree t = true)
    (k : String) : isExcluded t k = Legacy.isExcluded t k := by
  rw [isExcluded, Legacy.isExcluded, starFree_lookup_star h]
  simp

theorem childExclude_eq_legacy {t : FieldNode} (h : starFreeTree t = true)
    (k : String) : childExclude t k = Legacy.childExclude t k := by
  rw [childExclude, Legacy.childExclude]
  cases t.lookup k with
  | some u => rfl
  | none => rw [starFree_lookup_star h]

theorem starFree_childExclude {t : FieldNode} (h : starFreeTree t = true)
    (k : String) : starFreeTree (childExclude t k) = true := by
  rw [childExclude]
  cases hl : t.lookup k with
  | some u => exact starFree_lookup h hl
  | none =>
    rw [starFree_lookup_star h]
    rfl

theorem any_congr_mem {α} {l : List α} {p q : α → Bool}
    (h : ∀ a ∈ l, p a = q a) : l.any p = l.any q := by
  induction l with
  | nil => rfl
  | cons a rest ih =>
    rw [List.any_cons, List.any_cons, h a (by simp),
      ih (fun b hb => h b (by simp [hb]))]

/-- On a wildcard-free include set (and with `includeAll` off), the
revised and the legacy inclusion policies agree. -/
theorem isIncluded_eq_legacy (cfgN : FieldFilter) (cfgL : Legacy.FieldFilter)
    (h1 : cfgL.includeAll = false)
    (h2 : cfgL.includePaths = cfgN.includePaths)
    (h3 : cfgL.explicitPaths = cfgN.explicitPaths)
    (hstar : ∀ p ∈ cfgN.includePaths, ("*" : String) ∉ p) :
    ∀ path, isIncluded cfgN path = Legacy.isIncluded cfgL path := by
  have hexp : ∀ q, Legacy.isExplicitField cfgL q = isExplicitField cfgN q := by
    intro q
    rw [Legacy.isExplicitField, isExplicitField, h3]
  have hgate : ∀ q, Legacy.hasUnincludedExplicitAncestor cfgL q
      = hasUnincludedExplicitAncestor cfgN q := by
    intro q
    rw [Legacy.hasUnincludedExplicitAncestor, hasUnincludedExplicitAncestor]
    apply any_congr_mem
    intro i _
    rw [hexp, h2, isPathExplicitlyListed_eq_legacy _ hstar]
  intro path
  rw [isIncluded, Legacy.isIncluded, h1, h2]
  simp only [Bool.not_false, Bool.true_and]
  by_cases hemp : cfgN.includePaths.isEmpty
  · rw [if_pos hemp, if_pos hemp, hexp, hgate]
  · rw [if_neg hemp, if_neg hemp]
    simp only [Bool.false_eq_true, if_false]
    rw [hexp, hgate]
    by_cases hcond : (isExplicitField cfgN path ||
        hasUnincludedExplicitAncestor cfgN path) = true
    · rw [if_pos hcond, if_pos hcond,
        isPathOrDescendantListedConcrete_eq_legacy _ hstar]
    · rw [if_neg hcond, if_neg hcond,
        isAncestorListed_eq_legacy _ hstar,
        isPathOrDescendantListed_eq_legacy _ hstar]

/-- On a wildcard-free include set and a wildcard-free exclude trie,
the revised and the legacy evaluators agree on every JSON value. -/
theorem filterValue_eq_legacy (cfgN : FieldFilter) (cfgL : Legacy.FieldFilter)
    (h1 : cfgL.includeAll = false)
    (h2 : cfgL.includePaths = cfgN.includePaths)
    (h3 : cfgL.explicitPaths = cfgN.explicitPaths)
    (hstar : ∀ p ∈ cfgN.includePaths, ("*" : String) ∉ p) :
    ∀ v : Json, ∀ (path : List String) (t : FieldNode), starFreeTree t = true →
      filterValue cfgN v path t = Legacy.filterValue cfgL v path t := by
  have hinc := isIncluded_eq_legacy cfgN cfgL h1 h2 h3 hstar
  intro v
  induction v using Json.myInduction with
  | hnull => intro path t ht; rfl
  | hbool b => intro path t ht; rfl
  | hnum n => intro path t ht; rfl
  | hstr s => intro path t ht; rfl
  | harr xs ih =>
    intro path t ht
    rw [filterValue, Legacy.filterValue]
    have harrs : filterArray cfgN xs path t = Legacy.filterArray cfgL xs path t := by
      induction xs with
      | nil => rfl
      | cons x rest ihl =>
        rw [filterArray, Legacy.filterArray, ih x (by simp) path t ht,
          ihl (fun y hy => ih y (by simp [hy]))]
    rw [harrs]
  | hobj kvs ih =>
    intro path t ht
    rw [filterValue, Legacy.filterValue]
    have hents : filterEntries cfgN kvs path t
        = Legacy.filterEntries cfgL kvs path t := by
      induction kvs with
      | nil => rfl
      | cons kv rest ihl =>
        obtain ⟨k, v₀⟩ := kv
        rw [filterEntries, Legacy.filterEntries,
          ih k v₀ (by simp) (path ++ [k]) (childExclude t k)
            (starFree_childExclude ht k),
          childExclude_eq_legacy ht k, isExcluded_eq_legacy ht k,
          hinc (path ++ [k]),
          ihl (fun k₂ v₂ hm => ih k₂ v₂ (by simp [hm]))]
    rw [hents]

/-- Claim C10 (amended): on options whose include and exclude headers
are wildcard-free and are accepted by the revised grammar parser with
the same path lists as the legacy split-based parser produces, the
two shipped implementations build configurations whose `apply`
results are structurally identical for every JSON value.  (The
include hypotheses are phrased on the pre-trimmed header, which is
what both constructors actually parse.) -/
theorem implEquivalence_amended (incS excS : String) (ef : List String)
    (psI psE : List (List String)) (cfgN : FieldFilter)
    (hIn : parseFieldList (String.mk (trimChars incS.data)) = .ok psI)
    (hIL : Legacy.parseFieldList (String.mk (trimChars incS.data)) = psI)
    (hEn : parseFieldList excS = .ok psE)
    (hEL : Legacy.parseFieldList excS = psE)
    (hIstar : ∀ p ∈ psI, ("*" : String) ∉ p)
    (hEstar : ∀ p ∈ psE, ("*" : String) ∉ p)
    (hb : FieldFilter.build ⟨some incS, some excS, some ef⟩ = .ok cfgN) :
    ∀ v, cfgN.apply v
      = (Legacy.FieldFilter.build ⟨some incS, some excS, some ef⟩).apply v := by
  have hcfg : cfgN
      = ⟨psI, psE, ef.map parseExplicitField, buildFieldTree psE⟩ := by
    rw [FieldFilter.build] at hb
    simp only [Option.getD_some, hIn, hEn, Except.ok.injEq] at hb
    exact hb.symm
  have hT : (String.mk (trimChars incS.data) = "*") = False := by
    simp only [eq_iff_iff, iff_false]
    intro h
    rw [h] at hIn
    rw [show parseFieldList ("*") = .error (.topLevelWildcard 0) from rfl] at hIn
    exact Except.noConfusion hIn
  have hleg : Legacy.FieldFilter.build ⟨some incS, some excS, some ef⟩
      = ⟨false, psI, psE, ef.map parseExplicitField, buildFieldTree psE⟩ := by
    rw [Legacy.FieldFilter.build]
    simp only [Option.getD_some, hT, decide_False, hIL, hEL, if_false,
      Bool.false_eq_true]
  intro v
  rw [hcfg, hleg, FieldFilter.apply, Legacy.FieldFilter.apply]
  exact filterValue_eq_legacy _ _ rfl rfl rfl hIstar v []
    (buildFieldTree psE) (starFree_build psE hEstar)

/-- Counterexample to claim C10 as stated: the options object with
include `a..b` (which contains none of the characters `(`, `)`, `*`)
is accepted by the legacy implementation, which filters normally, but
makes the revised constructor throw a parse error — so the two
implementations cannot agree on it. -/
theorem implEquivalence_counterexample :
    parseFieldList ("a..b") = .error (.expectedName 2 (some '.')) ∧
    Legacy.parseFieldList ("a..b") = [["a", "b"]] ∧
    FieldFilter.build ⟨some ("a..b"), none, none⟩
      = .error (.expectedName 2 (some '.')) ∧
    (Legacy.FieldFilter.build ⟨some ("a..b"), none, none⟩).apply
        (.obj [("a", .obj [("b", .num 1)])])
      = some (.obj [("a", .obj [("b", .num 1)])]) :=
  ⟨rfl, rfl, rfl, rfl⟩

/-- Options for the C10 witness. -/
def equivOpts : FieldFilterOptions := ⟨some ("A.B, C"), some ("C"), some ["E"]⟩

/-- The configuration the revised constructor builds from `equivOpts`. -/
def equivCfg : FieldFilter :=
  ⟨[["A", "B"], ["C"]], [["C"]], [["E"]], .node [("C", .node [])]⟩

/-- A value exercising both headers of `equivOpts`. -/
def equivValue : Json := .obj [("A", .obj [("B", .num 1)]), ("C", .num 2)]

/-- Witness for claim C10 (amended), at include `A.B, C`, exclude `C`,
explicit `E`. -/
theorem implEquivalence_amended_witness :
    parseFieldList (String.mk (trimChars (String.data ("A.B, C"))))
      = .ok [["A", "B"], ["C"]] ∧
    Legacy.parseFieldList (String.mk (trimChars (String.data ("A.B, C"))))
      = [["A", "B"], ["C"]] ∧
    FieldFilter.build equivOpts = .ok equivCfg ∧
    equivCfg.apply equivValue
      = (Legacy.FieldFilter.build equivOpts).apply equivValue :=
  ⟨rfl, rfl, rfl,
   implEquivalence_amended ("A.B, C") ("C") ["E"] [["A", "B"], ["C"]] [["C"]]
     equivCfg rfl rfl rfl rfl (by decide) (by decide) rfl equivValue⟩
